import Mathlib

set_option maxHeartbeats 1000000

/-!
Shallow embedding of the Mini-GPS traffic map (src/TrafficMap.py, with
src/Untitled-1.py an equivalent near-duplicate of the same core):
the graph model (`nodes`, `adjacency`, `weights`, `blocked_nodes`,
`blocked_edges`), the interactive mutation operations of the main loop,
and the A* search (`astar` with `heuristic`, `reconstruct_path`).

Python dictionaries are modelled as insertion-ordered association lists
(the code only ever reads them through lookup and, at construction time,
in insertion order), Python sets as lists read only through membership.
Python ints are `Int`.  The floating-point values produced by
`math.hypot` appear in the program only in two roles: truncated to an
integer edge weight at construction time (`int(euclid_distance(..))`,
which on integer coordinates is the integer square root of the squared
distance), and inside the `f`-components of frontier tuples, which are
used only for ordering comparisons.  Those comparisons are embedded
exactly over the reals: an entry stores the squared distance `hsq` from
its node to the goal, `f = g + sqrt hsq`, and `cmpF` decides the real
comparison by integer arithmetic.  For the coordinate ranges of this
program distinct real `f`-values are separated by far more than the
double-precision rounding error of `hypot`, and equal real `f`-values
are computed from identical inputs and hence identical floats, so the
float comparisons of the source and the real comparisons of the
embedding agree.
-/

abbrev Place := String

/-- Lexicographic strict comparison of character lists by code point. -/
def strLtL : List Char → List Char → Bool
  | [], [] => false
  | [], _ :: _ => true
  | _ :: _, [] => false
  | a :: as, b :: bs => if a < b then true else if b < a then false else strLtL as bs

/-- Python `<` on strings: lexicographic by code point (agrees with the
standard string order; stated executably for kernel evaluation). -/
def strLt (a b : Place) : Bool := strLtL a.data b.data

/-- Python `tuple(sorted([a, b]))` on two strings (the canonical edge key). -/
def sortPair (a b : Place) : Place × Place :=
  if strLt b a then (b, a) else (a, b)

/-- Squared Euclidean distance between two integer screen coordinates.
`euclid_distance` in the source is `math.hypot` of the differences, i.e.
the real square root of this value. -/
def sqDist (p q : Int × Int) : Int :=
  (p.1 - q.1) ^ 2 + (p.2 - q.2) ^ 2

/-- Python `d[k]`-style lookup in an association list (first binding wins;
the dictionaries of the program have unique keys). -/
def dlookup {β : Type} (k : Place) : List (Place × β) → Option β
  | [] => none
  | kv :: rest => if kv.1 = k then some kv.2 else dlookup k rest

/-- Lookup keyed by a canonical edge pair. -/
def elookup {β : Type} (k : Place × Place) : List ((Place × Place) × β) → Option β
  | [] => none
  | kv :: rest => if kv.1 = k then some kv.2 else elookup k rest

/-- Python `d[k] = v`: update the existing binding in place, else append. -/
def dset {β : Type} (k : Place) (v : β) : List (Place × β) → List (Place × β)
  | [] => [(k, v)]
  | kv :: rest => if kv.1 = k then (k, v) :: rest else kv :: dset k v rest

/-- Bisection step for the integer square root: maintains
`lo ^ 2 ≤ n < hi ^ 2` and narrows until `hi ≤ lo + 1`. -/
def sqrtBisect (n : Nat) : Nat → Nat → Nat → Nat
  | 0, lo, _ => lo
  | fuel + 1, lo, hi =>
    if hi ≤ lo + 1 then lo
    else
      let mid := (lo + hi) / 2
      if mid * mid ≤ n then sqrtBisect n fuel mid hi else sqrtBisect n fuel lo mid

/-- Floor of the real square root of a natural number (`int(math.sqrt ..)`
on an exact value; `sqrtBisect_spec` below proves the floor property). -/
def intSqrt (n : Nat) : Nat := sqrtBisect n (n + 2) 0 (n + 1)

/-- The mutable module-level state of the program: node coordinates,
adjacency lists, canonical edge weights, and the two blocked sets. -/
structure GraphState where
  nodes : List (Place × (Int × Int))
  adjacency : List (Place × List Place)
  weights : List ((Place × Place) × Int)
  blockedNodes : List Place
  blockedEdges : List (Place × Place)
deriving DecidableEq, Repr

/-- One step of the module-level `weights` construction loop: one
canonical edge per unordered pair appearing in either direction, initial
weight `int(euclid_distance(n1, n2))` = the integer square root of the
squared distance.  A dangling name makes `nodes[..]` raise, modelled by
`none`. -/
def addEdge (nodesL : List (Place × (Int × Int))) (n1 n2 : Place)
    (acc : Option (List ((Place × Place) × Int))) :
    Option (List ((Place × Place) × Int)) :=
  match acc with
  | none => none
  | some w =>
    let e := sortPair n1 n2
    if (elookup e w).isSome then some w
    else
      match dlookup n1 nodesL, dlookup n2 nodesL with
      | some c1, some c2 =>
          some (w ++ [(e, Int.ofNat (intSqrt (sqDist c1 c2).toNat))])
      | _, _ => none

/-- The two nested `for` loops of the construction. -/
def buildWeights (nodesL : List (Place × (Int × Int))) (adj : List (Place × List Place)) :
    Option (List ((Place × Place) × Int)) :=
  adj.foldl (fun acc p => p.2.foldl (fun acc n2 => addEdge nodesL p.1 n2 acc) acc) (some [])

/-! Concrete graphs of the two source files. -/

/-- Node layout of `TrafficMap.py`. -/
def nodesT : List (Place × (Int × Int)) :=
  [("Bank", (100, 100)), ("Cafe", (350, 120)), ("Club", (600, 100)),
   ("Park", (900, 130)), ("Mall", (1200, 100)), ("School", (150, 300)),
   ("Gym", (450, 280)), ("Market", (700, 300)), ("Hospital", (950, 280)),
   ("Cinema", (1200, 300)), ("Library", (400, 500)), ("Office", (1000, 500)),
   ("Home", (700, 600))]

/-- Adjacency lists of `TrafficMap.py`. -/
def adjT : List (Place × List Place) :=
  [("Bank", ["Cafe", "School"]), ("Cafe", ["Bank", "Club", "Gym"]),
   ("Club", ["Cafe", "Park", "Market"]), ("Park", ["Club", "Mall", "Hospital"]),
   ("Mall", ["Park", "Cinema"]), ("School", ["Bank", "Gym"]),
   ("Gym", ["School", "Cafe", "Market", "Library"]),
   ("Market", ["Gym", "Club", "Hospital", "Office", "Home"]),
   ("Hospital", ["Market", "Park", "Cinema"]),
   ("Cinema", ["Hospital", "Mall", "Office"]), ("Library", ["Gym", "Office"]),
   ("Office", ["Library", "Cinema", "Market"]), ("Home", ["Market"])]

/-- Initial edge weights of `TrafficMap.py`. -/
def weightsT : List ((Place × Place) × Int) := (buildWeights nodesT adjT).getD []

/-- The initial module-level state of `TrafficMap.py`. -/
def initT : GraphState := ⟨nodesT, adjT, weightsT, [], []⟩

/-- Node layout of `Untitled-1.py`. -/
def nodesU : List (Place × (Int × Int)) :=
  [("A", (100, 500)), ("B", (260, 420)), ("C", (260, 580)), ("D", (420, 500)),
   ("E", (600, 420)), ("F", (600, 580)), ("G", (760, 500)), ("H", (880, 380)),
   ("I", (880, 620))]

/-- Adjacency lists of `Untitled-1.py`. -/
def adjU : List (Place × List Place) :=
  [("A", ["B", "C"]), ("B", ["A", "D", "E"]), ("C", ["A", "D", "F"]),
   ("D", ["B", "C", "E", "F"]), ("E", ["B", "D", "G", "H"]),
   ("F", ["C", "D", "G", "I"]), ("G", ["D", "E", "F", "H", "I"]),
   ("H", ["E", "G"]), ("I", ["F", "G"])]

/-- Initial edge weights of `Untitled-1.py`. -/
def weightsU : List ((Place × Place) × Int) := (buildWeights nodesU adjU).getD []

/-- The initial module-level state of `Untitled-1.py`. -/
def initU : GraphState := ⟨nodesU, adjU, weightsU, [], []⟩

/-! The interactive mutation operations of the main event loop. -/

/-- SHIFT+click on a node: `blocked_nodes ^= {clicked_node}`. -/
def toggleBlockNode (st : GraphState) (n : Place) : GraphState :=
  { st with blockedNodes :=
      if n ∈ st.blockedNodes then st.blockedNodes.filter (· ≠ n)
      else n :: st.blockedNodes }

/-- CTRL+click near an edge: `blocked_edges ^= {edge_key}` with
`edge_key = tuple(sorted(clicked_edge))`. -/
def toggleBlockEdge (st : GraphState) (e : Place × Place) : GraphState :=
  let k := sortPair e.1 e.2
  { st with blockedEdges :=
      if k ∈ st.blockedEdges then st.blockedEdges.filter (· ≠ k)
      else k :: st.blockedEdges }

/-- Plain click near an edge: `weights[edge_key] += TRAFFIC_STEP` with
`TRAFFIC_STEP = 50` (a key produced by edge hit-testing always exists; a
missing key would raise in Python and is a no-op here). -/
def incTraffic (st : GraphState) (e : Place × Place) : GraphState :=
  let k := sortPair e.1 e.2
  { st with weights := st.weights.map (fun kv => if kv.1 = k then (kv.1, kv.2 + 50) else kv) }

/-- ALT+click near an edge: `weights[edge_key] = max(1, weights[edge_key] - TRAFFIC_STEP)`. -/
def decTraffic (st : GraphState) (e : Place × Place) : GraphState :=
  let k := sortPair e.1 e.2
  { st with weights :=
      st.weights.map (fun kv => if kv.1 = k then (kv.1, max 1 (kv.2 - 50)) else kv) }

/-- One user-driven graph mutation. -/
inductive Op where
  | blockNode (n : Place)
  | blockEdge (e : Place × Place)
  | inc (e : Place × Place)
  | dec (e : Place × Place)
deriving DecidableEq, Repr

/-- Apply one mutation. -/
def applyOp (st : GraphState) : Op → GraphState
  | .blockNode n => toggleBlockNode st n
  | .blockEdge e => toggleBlockEdge st e
  | .inc e => incTraffic st e
  | .dec e => decTraffic st e

/-- Apply a sequence of mutations, oldest first. -/
def applyOps (st : GraphState) (ops : List Op) : GraphState :=
  ops.foldl applyOp st

/-! The A* search (`heuristic`, `reconstruct_path`, `astar`). -/

/-- One frontier tuple `(f, g, node, parent)` of the `heapq` open list.
`f` is not stored directly: it is `g + Real.sqrt hsq`, where `hsq` is
the squared Euclidean distance from `node` to the goal recorded when the
tuple was pushed (`heuristic(node, goal)`). -/
structure Entry where
  g : Int
  hsq : Int
  node : Place
  parent : Option Place
deriving DecidableEq, Repr

/-- Exact three-way comparison of `g1 + sqrt a1` with `g2 + sqrt a2`
(for `0 ≤ a1`, `0 ≤ a2`) by integer arithmetic: the comparison of the
floating-point `f`-components of two frontier tuples. -/
def cmpF (g1 a1 g2 a2 : Int) : Ordering :=
  let m := g1 - g2
  if m < 0 ∧ a1 < m ^ 2 then .lt
  else
    let t := a2 - m ^ 2 - a1
    if 0 ≤ m then
      if t < 0 then .gt else compare (4 * m ^ 2 * a1) (t ^ 2)
    else
      if 0 < t then .lt else compare (t ^ 2) (4 * m ^ 2 * a1)

/-- Three-way string comparison induced by `strLt`. -/
def cmpStr (a b : Place) : Ordering :=
  if strLt a b then .lt else if strLt b a then .gt else .eq

/-- Comparison of the `parent` components.  In Python a `None` parent is
comparable only to `None`; the lone `None`-parented tuple is the initial
entry for `start`, and `start` is never pushed again (any tentative cost
is positive while `g_score[start] = 0`), so the mixed cases never arise;
they are ordered `none`-first here for totality. -/
def cmpOptPlace : Option Place → Option Place → Ordering
  | none, none => .eq
  | none, some _ => .lt
  | some _, none => .gt
  | some a, some b => cmpStr a b

/-- Lexicographic comparison of two frontier tuples `(f, g, node, parent)`,
as Python compares the heap tuples. -/
def cmpEntry (e1 e2 : Entry) : Ordering :=
  ((cmpF e1.g e1.hsq e2.g e2.hsq).then (compare e1.g e2.g)).then
    ((cmpStr e1.node e2.node).then (cmpOptPlace e1.parent e2.parent))

/-- The least tuple of `best :: l` in the tuple order: the value returned
by `heapq.heappop` (tuples comparing equal are structurally identical, so
the popped value is determined by the multiset alone). -/
def selectMin (best : Entry) : List Entry → Entry
  | [] => best
  | e :: rest => selectMin (if cmpEntry e best = .lt then e else best) rest

/-- The result of `astar`: `(path-or-None, cost-or-None)` as returned by
the Python function, `keyError` for an uncaught `KeyError` from a dict
subscript, `fuelOut` for exhaustion of the loop fuel (never reached from
`astar`, whose fuel bounds the possible iteration count). -/
inductive AResult where
  | ret (path : Option (List Place)) (cost : Option Int)
  | keyError
  | fuelOut
deriving DecidableEq, Repr

/-- The body of `reconstruct_path`: follow `came_from.get(current, None)`
until `None`, accumulating nodes.  The source appends and reverses; the
accumulator builds the reversed list directly.  The fuel covers any
parent chain the search can record (distinct keys, strictly decreasing
costs); on a hypothetical cyclic chain the source would loop forever. -/
def reconstructAux (came : List (Place × Option Place)) :
    Nat → Option Place → List Place → List Place
  | 0, _, acc => acc
  | fuel + 1, cur, acc =>
    match cur with
    | none => acc
    | some c => reconstructAux came fuel ((dlookup c came).getD none) (c :: acc)

/-- `reconstruct_path(came_from, current)`. -/
def reconstructPath (came : List (Place × Option Place)) (cur : Place) : List Place :=
  reconstructAux came (came.length + 1) (some cur) []

/-- One neighbor iteration of the relaxation loop: skip blocked or closed
neighbors, compute `tentative_g = g_score[current] + weights[edge]`, and
on strict improvement record the new `g_score` and push
`(tentative_g + heuristic(neighbor, goal), tentative_g, neighbor, current)`.
`none` models a `KeyError` from `g_score[current]`, `weights[edge]` or
`nodes[neighbor]`. -/
def relaxStep (st : GraphState) (pt : Int × Int) (cur : Place) (closed : List Place)
    (acc : List Entry × List (Place × Int)) (nb : Place) :
    Option (List Entry × List (Place × Int)) :=
  let edge := sortPair cur nb
  if nb ∈ closed ∨ nb ∈ st.blockedNodes ∨ edge ∈ st.blockedEdges then some acc
  else
    match dlookup cur acc.2 with
    | none => none
    | some gcur =>
      match elookup edge st.weights with
      | none => none
      | some w =>
        let tentative := gcur + w
        let better := match dlookup nb acc.2 with
          | none => true
          | some prev => decide (tentative < prev)
        if better then
          match dlookup nb st.nodes with
          | none => none
          | some pn =>
              some (acc.1 ++ [⟨tentative, sqDist pn pt, nb, some cur⟩], dset nb tentative acc.2)
        else some acc

/-- The relaxation loop over `adjacency.get(current_node, [])`. -/
def relaxList (st : GraphState) (pt : Int × Int) (cur : Place) (closed : List Place) :
    List Place → (List Entry × List (Place × Int)) → Option (List Entry × List (Place × Int))
  | [], acc => some acc
  | nb :: rest, acc =>
    match relaxStep st pt cur closed acc nb with
    | none => none
    | some acc' => relaxList st pt cur closed rest acc'

/-- The `while open_list:` loop of `astar`, with `t` the goal and `pt` its
coordinates.  Each iteration pops the least tuple, skips it when stale
(`g_current > g_score[current_node]`), records the parent, returns on the
goal, and otherwise closes the node and relaxes its neighbors. -/
def astarLoop (st : GraphState) (t : Place) (pt : Int × Int) :
    Nat → List Entry → List (Place × Option Place) → List (Place × Int) → List Place → AResult
  | 0, frontier, _, _, _ => if frontier.isEmpty then .ret none none else .fuelOut
  | fuel + 1, frontier, came, gs, closed =>
    match frontier with
    | [] => .ret none none
    | e :: es =>
      let cur := selectMin e es
      let rest := (e :: es).erase cur
      let stale := match dlookup cur.node gs with
        | some b => decide (b < cur.g)
        | none => false
      if stale then astarLoop st t pt fuel rest came gs closed
      else
        let came' := dset cur.node cur.parent came
        if cur.node = t then
          .ret (some (reconstructPath came' cur.node)) (dlookup t gs)
        else
          let closed' := if cur.node ∈ closed then closed else cur.node :: closed
          match relaxList st pt cur.node closed' ((dlookup cur.node st.adjacency).getD []) (rest, gs) with
          | none => .keyError
          | some acc' => astarLoop st t pt fuel acc'.1 came' acc'.2 closed'

/-- Sum of the (nonnegative parts of the) edge weights, used to bound the
possible `g_score` values and hence the iteration count of the loop. -/
def sumW (st : GraphState) : Nat :=
  st.weights.foldr (fun kv acc => kv.2.toNat + acc) 0

/-- Fuel that the search loop can never exhaust: every iteration removes a
tuple, every pushed tuple strictly lowers a `g_score` entry, and all
`g_score` values lie between `0` and twice the total weight. -/
def astarFuel (st : GraphState) : Nat :=
  (st.nodes.length + 1) * (2 * sumW st + 2) + 4

/-- `astar(start, goal)` over the current graph state: the `None` and
blocked-endpoint checks, the `start == goal` short-circuit, and otherwise
the search loop seeded with `(heuristic(start, goal), 0.0, start, None)`.
A `start` or `goal` id absent from `nodes` makes `heuristic` raise
`KeyError`. -/
def astar (st : GraphState) (start goal : Option Place) : AResult :=
  match start, goal with
  | some s, some t =>
    if s ∈ st.blockedNodes ∨ t ∈ st.blockedNodes then .ret none none
    else if s = t then .ret (some [s]) (some 0)
    else
      match dlookup s st.nodes, dlookup t st.nodes with
      | some ps, some pt =>
          astarLoop st t pt (astarFuel st) [⟨0, sqDist ps pt, s, none⟩] [] [(s, 0)] []
      | _, _ => .keyError
  | _, _ => .ret none none

/-! Specification-side notions: feasible paths, simple paths, optimal cost,
well-formedness of a state, and admissibility of the heuristic. -/

/-- One traversable step of the search: `v` is listed as a neighbor of `u`
and neither `v` nor the canonical edge is blocked (the skip conditions of
the relaxation loop). -/
def stepOKb (st : GraphState) (u v : Place) : Bool :=
  decide (v ∈ (dlookup u st.adjacency).getD []) &&
    !decide (v ∈ st.blockedNodes) && !decide (sortPair u v ∈ st.blockedEdges)

/-- A list of places each consecutive pair of which is a traversable step. -/
def chainB (st : GraphState) : List Place → Bool
  | [] => true
  | [_] => true
  | u :: v :: rest => stepOKb st u v && chainB st (v :: rest)

/-- Total weight of the consecutive canonical edges of a list of places. -/
def costL (st : GraphState) : List Place → Int
  | [] => 0
  | [_] => 0
  | u :: v :: rest => (elookup (sortPair u v) st.weights).getD 0 + costL st (v :: rest)

/-- A feasible path from `s` to `t`: nonempty, starts at `s`, ends at `t`,
every consecutive pair a traversable step. -/
def FeasiblePath (st : GraphState) (s t : Place) (L : List Place) : Prop :=
  L.head? = some s ∧ L.getLast? = some t ∧ chainB st L = true

/-- A simple feasible path: a feasible path without repeated places. -/
def SimplePath (st : GraphState) (s t : Place) (L : List Place) : Prop :=
  FeasiblePath st s t L ∧ L.Nodup

/-- `c` is the minimum total weight over all simple feasible paths from
`s` to `t`, and it is attained. -/
def IsBestCost (st : GraphState) (s t : Place) (c : Int) : Prop :=
  (∃ L, SimplePath st s t L ∧ costL st L = c) ∧
    ∀ L, SimplePath st s t L → c ≤ costL st L

/-- Well-formedness of a graph state, true of every state the program
reaches: node and weight keys are unique, every listed neighbor has
coordinates and a canonical weight entry, and all weights are positive. -/
def WFState (st : GraphState) : Prop :=
  (st.nodes.map Prod.fst).Nodup ∧
  (st.weights.map Prod.fst).Nodup ∧
  (∀ p ∈ st.adjacency, ∀ v ∈ p.2,
     (dlookup v st.nodes).isSome = true ∧
       (elookup (sortPair p.1 v) st.weights).isSome = true) ∧
  ∀ kv ∈ st.weights, 1 ≤ kv.2

/-- Admissibility of the Euclidean heuristic: along every listed edge the
straight-line distance is at most the edge weight (equivalently, the
squared distance is at most the squared weight; weights are positive in
well-formed states). -/
def AdmissibleW (st : GraphState) : Prop :=
  ∀ p ∈ st.adjacency, ∀ v ∈ p.2,
    sqDist ((dlookup p.1 st.nodes).getD (0, 0)) ((dlookup v st.nodes).getD (0, 0)) ≤
      ((elookup (sortPair p.1 v) st.weights).getD 1) ^ 2

/-- The UI fields the SPACE handler touches. -/
structure UIState where
  startNode : Option Place
  goalNode : Option Place
  currentPath : Option (List Place)
  pathCost : Option Int
  pathAttempted : Bool
deriving DecidableEq, Repr

/-- The `K_SPACE` branch of the event loop: set `path_attempted`, call
`astar(start_node, goal_node)` and store its two components.  `none`
models the program dying on an uncaught exception from `astar`. -/
def handleSpace (g : GraphState) (ui : UIState) : Option (GraphState × UIState) :=
  match astar g ui.startNode ui.goalNode with
  | .ret p c =>
      some (g, { ui with pathAttempted := true, currentPath := p, pathCost := c })
  | _ => none

/-- The graph state of `Untitled-1.py` after four ALT+clicks on the edge
`D-E` (weight `196 → 146 → 96 → 46 → 1`). -/
def stCex : GraphState :=
  applyOps initU [.dec ("D", "E"), .dec ("D", "E"), .dec ("D", "E"), .dec ("D", "E")]

/-- The graph state of `Untitled-1.py` after one plain click on every
road (each weight raised by `TRAFFIC_STEP = 50`, so every weight exceeds
the straight-line distance of its endpoints and the heuristic is
admissible). -/
def stWit : GraphState :=
  applyOps initU
    [.inc ("A", "B"), .inc ("A", "C"), .inc ("B", "D"), .inc ("B", "E"),
     .inc ("C", "D"), .inc ("C", "F"), .inc ("D", "E"), .inc ("D", "F"),
     .inc ("E", "G"), .inc ("E", "H"), .inc ("F", "G"), .inc ("F", "I"),
     .inc ("G", "H"), .inc ("G", "I")]

/-- Every consecutive pair of the list has a canonical weight entry. -/
def edgesExistB (st : GraphState) : List Place → Bool
  | [] => true
  | [_] => true
  | u :: v :: rest => (elookup (sortPair u v) st.weights).isSome && edgesExistB st (v :: rest)

/-- No place of the list is a blocked place. -/
def noBlockedNodeB (st : GraphState) (L : List Place) : Bool :=
  L.all (fun x => !decide (x ∈ st.blockedNodes))

/-- No consecutive pair of the list is a blocked canonical edge. -/
def noBlockedEdgeB (st : GraphState) : List Place → Bool
  | [] => true
  | [_] => true
  | u :: v :: rest => !decide (sortPair u v ∈ st.blockedEdges) && noBlockedEdgeB st (v :: rest)

/-- Number of recorded parents whose `g_score` is strictly below `gn`
(the parent chain descends through these, bounding its length). -/
def countBelow (came : List (Place × Option Place)) (gs : List (Place × Int)) (gn : Int) : Nat :=
  came.countP (fun pr => decide ((dlookup pr.1 gs).getD gn < gn))

/-- Termination potential of the `g_score` table: unrecorded nodes carry
the cap `2 * sumW + 2`, recorded nodes their current value; every push of
the search strictly lowers it. -/
def potential (st : GraphState) (gs : List (Place × Int)) : Nat :=
  (st.nodes.map (fun nv =>
    match dlookup nv.1 gs with
    | some v => v.toNat
    | none => 2 * sumW st + 2)).sum

/-- The fixed data of one run of the search loop: state, endpoints and
their coordinates. -/
structure SearchCtx where
  st : GraphState
  s : Place
  t : Place
  ps : Int × Int
  pt : Int × Int

/-- The facts available when `astar` enters its loop on a well-formed
state: well-formedness, both endpoints present and unblocked, distinct. -/
structure CtxOK (c : SearchCtx) : Prop where
  wf_nodes : (c.st.nodes.map Prod.fst).Nodup
  wf_wkeys : (c.st.weights.map Prod.fst).Nodup
  wf_adj : ∀ p ∈ c.st.adjacency, ∀ v ∈ p.2,
    (dlookup v c.st.nodes).isSome = true ∧
      (elookup (sortPair p.1 v) c.st.weights).isSome = true
  wf_wpos : ∀ kv ∈ c.st.weights, 1 ≤ kv.2
  hs : dlookup c.s c.st.nodes = some c.ps
  ht : dlookup c.t c.st.nodes = some c.pt
  hsb : c.s ∉ c.st.blockedNodes
  htb : c.t ∉ c.st.blockedNodes
  hst : c.s ≠ c.t

/-- Soundness of the recorded parent map: unique keys, the root is the
start, and every other binding steps from an earlier key along a
traversable weighted edge, with `g_score` values adding up. -/
structure CameOK (st : GraphState) (s : Place) (gs : List (Place × Int))
    (came : List (Place × Option Place)) : Prop where
  keys_nodup : (came.map Prod.fst).Nodup
  root : ∀ pr ∈ came, pr.2 = none → pr.1 = s
  step : ∀ pr ∈ came, ∀ p, pr.2 = some p →
    stepOKb st p pr.1 = true ∧ (∃ q, (p, q) ∈ came) ∧
    ∃ gp gn w, dlookup p gs = some gp ∧ dlookup pr.1 gs = some gn ∧
      elookup (sortPair p pr.1) st.weights = some w ∧ gn = gp + w ∧ 1 ≤ w
  s_zero : dlookup s gs = some 0
  nonneg : ∀ kv ∈ gs, 0 ≤ kv.2

/-- The loop invariant shared by the shape claims: bookkeeping facts
about the frontier, the parent map, the cost table and the closed set. -/
structure Inv2 (c : SearchCtx) (frontier : List Entry)
    (came : List (Place × Option Place)) (gs : List (Place × Int))
    (closed : List Place) : Prop where
  gs_keysnodup : (gs.map Prod.fst).Nodup
  gs_unblocked : ∀ kv ∈ gs, kv.1 ∉ c.st.blockedNodes
  gs_nodes : ∀ kv ∈ gs, (dlookup kv.1 c.st.nodes).isSome = true
  cameOK : CameOK c.st c.s gs came
  came_closed : ∀ pr ∈ came, pr.1 ∈ closed
  entry_gs : ∀ e ∈ frontier, ∃ v, dlookup e.node gs = some v ∧ v ≤ e.g
  entry_root : ∀ e ∈ frontier, e.parent = none →
    e.node = c.s ∧ e.g = 0 ∧ e.hsq = sqDist c.ps c.pt
  entry_step : ∀ e ∈ frontier, ∀ p, e.parent = some p →
    stepOKb c.st p e.node = true ∧ p ∈ closed ∧
    (∃ pn, dlookup e.node c.st.nodes = some pn ∧ e.hsq = sqDist pn c.pt) ∧
    ∃ gp w, dlookup p gs = some gp ∧
      elookup (sortPair p e.node) c.st.weights = some w ∧ e.g = gp + w
  closed_gs : ∀ n ∈ closed, ∃ v, dlookup n gs = some v
  closed_came : ∀ n ∈ closed, ∃ q, (n, q) ∈ came
  closed_not_t : c.t ∉ closed

/-- The edge `n → v` has been relaxed: both endpoints carry `g_score`
entries, the canonical weight exists, and `v`'s score is at most `n`'s
plus the edge weight. -/
def EdgeFact (st : GraphState) (gs : List (Place × Int)) (n v : Place) : Prop :=
  ∃ gv gn w, dlookup v gs = some gv ∧ dlookup n gs = some gn ∧
    elookup (sortPair n v) st.weights = some w ∧ gv ≤ gn + w

/-- The additional invariant for the optimality claim: every recorded
cost is realized by a duplicate-free feasible path through closed nodes,
unclosed recorded nodes have a live exact frontier entry, closed costs
are lower bounds over feasible paths, and edges out of closed nodes have
been relaxed. -/
structure Inv1 (c : SearchCtx) (frontier : List Entry)
    (came : List (Place × Option Place)) (gs : List (Place × Int))
    (closed : List Place) : Prop where
  base : Inv2 c frontier came gs closed
  reach : ∀ kv ∈ gs, ∃ L, FeasiblePath c.st c.s kv.1 L ∧ L.Nodup ∧
    (∀ x ∈ L, x = kv.1 ∨ x ∈ closed) ∧ costL c.st L = kv.2
  live : ∀ kv ∈ gs, kv.1 ∉ closed → ∃ e ∈ frontier, e.node = kv.1 ∧ e.g = kv.2
  closed_best : ∀ n ∈ closed, ∀ v, dlookup n gs = some v →
    ∀ L, FeasiblePath c.st c.s n L → v ≤ costL c.st L
  closed_edge : ∀ n ∈ closed, ∀ v, stepOKb c.st n v = true → EdgeFact c.st gs n v

/-- The state of the optimality invariant in the middle of the
relaxation loop on the just-closed node `cur`: as `Inv1`, except that an
edge out of `cur` either has been relaxed already or its target is still
in the unprocessed suffix `ns` of `cur`'s neighbor list. -/
structure Inv1R (c : SearchCtx) (cur : Place) (ns : List Place) (frontier : List Entry)
    (came : List (Place × Option Place)) (gs : List (Place × Int))
    (closed : List Place) : Prop where
  base : Inv2 c frontier came gs closed
  reach : ∀ kv ∈ gs, ∃ L, FeasiblePath c.st c.s kv.1 L ∧ L.Nodup ∧
    (∀ x ∈ L, x = kv.1 ∨ x ∈ closed) ∧ costL c.st L = kv.2
  live : ∀ kv ∈ gs, kv.1 ∉ closed → ∃ e ∈ frontier, e.node = kv.1 ∧ e.g = kv.2
  closed_best : ∀ n ∈ closed, ∀ v, dlookup n gs = some v →
    ∀ L, FeasiblePath c.st c.s n L → v ≤ costL c.st L
  closed_edge : ∀ n ∈ closed, n ≠ cur → ∀ v, stepOKb c.st n v = true → EdgeFact c.st gs n v
  cur_edge : ∀ v, stepOKb c.st cur v = true → v ∈ ns ∨ EdgeFact c.st gs cur v

/-- The canonical edge keys of the consecutive pairs of a list of places
(the keys whose weights `costL` sums). -/
def pairsOf : List Place → List (Place × Place)
  | [] => []
  | [_] => []
  | u :: v :: rest => sortPair u v :: pairsOf (v :: rest)

/-- What a `ret` result of the search loop looks like: either the
not-found pair or a found pair whose path is feasible from start to goal,
uses only existing unblocked roads, and whose cost is the weight sum. -/
def GoodRet (c : SearchCtx) : AResult → Prop
  | .ret (some L) (some gn) =>
      FeasiblePath c.st c.s c.t L ∧ edgesExistB c.st L = true ∧
      costL c.st L = gn ∧ noBlockedNodeB c.st L = true ∧
      noBlockedEdgeB c.st L = true
  | .ret none none => True
  | .ret _ _ => False
  | .keyError => True
  | .fuelOut => True

/-- All adjacent coordinate pairs of the construction input are at
Euclidean distance at least 1 (squared distance at least 1). -/
def MinSeparation (nodesL : List (Place × (Int × Int))) (adj : List (Place × List Place)) : Prop :=
  ∀ p ∈ adj, ∀ v ∈ p.2,
    1 ≤ sqDist ((dlookup p.1 nodesL).getD (0, 0)) ((dlookup v nodesL).getD (0, 0))

instance (nodesL : List (Place × (Int × Int))) (adj : List (Place × List Place)) :
    Decidable (MinSeparation nodesL adj) := by
  unfold MinSeparation; infer_instance

instance (st : GraphState) : Decidable (WFState st) := by
  unfold WFState; infer_instance

instance (st : GraphState) : Decidable (AdmissibleW st) := by
  unfold AdmissibleW; infer_instance

/-! Basic lemmas about the helpers. -/

theorem sqrtBisect_spec (n : Nat) : ∀ fuel lo hi, lo * lo ≤ n → n < hi * hi →
    lo < hi → hi - lo ≤ fuel →
    sqrtBisect n fuel lo hi * sqrtBisect n fuel lo hi ≤ n ∧
      n < (sqrtBisect n fuel lo hi + 1) * (sqrtBisect n fuel lo hi + 1) := by
  intro fuel
  induction fuel with
  | zero => intro lo hi _ _ h3 h4; omega
  | succ fuel ih =>
    intro lo hi h1 h2 h3 h4
    rw [sqrtBisect]
    by_cases hle : hi ≤ lo + 1
    · rw [if_pos hle]
      refine ⟨h1, ?_⟩
      have : hi = lo + 1 := by omega
      subst this; exact h2
    · rw [if_neg hle]
      simp only
      by_cases hm : ((lo + hi) / 2) * ((lo + hi) / 2) ≤ n
      · rw [if_pos hm]; exact ih _ hi hm h2 (by omega) (by omega)
      · rw [if_neg hm]; exact ih lo _ h1 (by omega) (by omega) (by omega)

theorem intSqrt_spec (n : Nat) :
    intSqrt n * intSqrt n ≤ n ∧ n < (intSqrt n + 1) * (intSqrt n + 1) :=
  sqrtBisect_spec n (n + 2) 0 (n + 1) (by omega) (by nlinarith) (by omega) (by omega)

theorem intSqrt_pos {n : Nat} (h : 1 ≤ n) : 1 ≤ intSqrt n := by
  rcases intSqrt_spec n with ⟨_, h2⟩
  by_contra hc
  have : intSqrt n = 0 := by omega
  rw [this] at h2
  omega

theorem dlookup_eq_some_mem {β : Type} {k : Place} {v : β} :
    ∀ {l : List (Place × β)}, dlookup k l = some v → (k, v) ∈ l := by
  intro l
  induction l with
  | nil => intro h; simp [dlookup] at h
  | cons kv rest ih =>
    obtain ⟨k1, v1⟩ := kv
    intro h
    rw [dlookup] at h
    by_cases he : k1 = k
    · rw [if_pos he] at h
      injection h with h
      subst he; subst h
      exact List.mem_cons_self _ _
    · rw [if_neg he] at h
      exact List.mem_cons_of_mem _ (ih h)

theorem elookup_eq_some_mem {β : Type} {k : Place × Place} {v : β} :
    ∀ {l : List ((Place × Place) × β)}, elookup k l = some v → (k, v) ∈ l := by
  intro l
  induction l with
  | nil => intro h; simp [elookup] at h
  | cons kv rest ih =>
    obtain ⟨k1, v1⟩ := kv
    intro h
    rw [elookup] at h
    by_cases he : k1 = k
    · rw [if_pos he] at h
      injection h with h
      subst he; subst h
      exact List.mem_cons_self _ _
    · rw [if_neg he] at h
      exact List.mem_cons_of_mem _ (ih h)

theorem dlookup_isSome_iff {β : Type} {k : Place} :
    ∀ {l : List (Place × β)}, (dlookup k l).isSome = true ↔ k ∈ l.map Prod.fst := by
  intro l
  induction l with
  | nil => simp [dlookup]
  | cons kv rest ih =>
    by_cases he : kv.1 = k
    · simp [dlookup, he]
    · simp [dlookup, he, ih, Ne.symm he]

theorem dlookup_of_mem_nodup {β : Type} {k : Place} {v : β} :
    ∀ {l : List (Place × β)}, (l.map Prod.fst).Nodup → (k, v) ∈ l → dlookup k l = some v := by
  intro l
  induction l with
  | nil => simp
  | cons kv rest ih =>
    intro hnd hm
    simp only [List.map_cons, List.nodup_cons] at hnd
    rcases List.mem_cons.mp hm with h | h
    · subst h; simp [dlookup]
    · have hne : kv.1 ≠ k := by
        intro he
        exact hnd.1 (he ▸ (List.mem_map.mpr ⟨(k, v), h, rfl⟩))
      rw [dlookup, if_neg hne]
      exact ih hnd.2 h

theorem dlookup_dset_self {β : Type} (k : Place) (v : β) :
    ∀ (l : List (Place × β)), dlookup k (dset k v l) = some v := by
  intro l
  induction l with
  | nil => simp [dset, dlookup]
  | cons kv rest ih =>
    rw [dset]
    by_cases he : kv.1 = k
    · rw [if_pos he, dlookup, if_pos rfl]
    · rw [if_neg he, dlookup, if_neg he]
      exact ih

theorem dlookup_dset_ne {β : Type} (k k' : Place) (v : β) (h : k' ≠ k) :
    ∀ (l : List (Place × β)), dlookup k' (dset k v l) = dlookup k' l := by
  intro l
  induction l with
  | nil => simp [dset, dlookup, Ne.symm h]
  | cons kv rest ih =>
    obtain ⟨k1, v1⟩ := kv
    rw [dset]
    by_cases he : k1 = k
    · subst he
      rw [if_pos rfl, dlookup, dlookup]
      simp only
      rw [if_neg (fun hh => h hh.symm), if_neg (fun hh => h hh.symm)]
    · rw [if_neg he, dlookup, dlookup]
      simp only
      by_cases hk : k1 = k'
      · rw [if_pos hk, if_pos hk]
      · rw [if_neg hk, if_neg hk]
        exact ih

theorem mem_dset {β : Type} {kv' : Place × β} {k : Place} {v : β} :
    ∀ {l : List (Place × β)}, kv' ∈ dset k v l → kv' = (k, v) ∨ kv' ∈ l := by
  intro l
  induction l with
  | nil => intro h; simp [dset] at h; exact Or.inl h
  | cons kv rest ih =>
    intro h
    rw [dset] at h
    by_cases he : kv.1 = k
    · rw [if_pos he] at h
      rcases List.mem_cons.mp h with h | h
      · exact Or.inl h
      · exact Or.inr (List.mem_cons_of_mem _ h)
    · rw [if_neg he] at h
      rcases List.mem_cons.mp h with h | h
      · exact Or.inr (h ▸ List.mem_cons_self _ _)
      · rcases ih h with h | h
        · exact Or.inl h
        · exact Or.inr (List.mem_cons_of_mem _ h)

theorem dset_keys {β : Type} (k : Place) (v : β) :
    ∀ (l : List (Place × β)), (dset k v l).map Prod.fst =
      if k ∈ l.map Prod.fst then l.map Prod.fst else l.map Prod.fst ++ [k] := by
  intro l
  induction l with
  | nil => simp [dset]
  | cons kv rest ih =>
    rw [dset]
    by_cases he : kv.1 = k
    · rw [if_pos he]
      simp [he]
    · rw [if_neg he]
      simp only [List.map_cons, ih]
      by_cases hm : k ∈ rest.map Prod.fst
      · rw [if_pos hm, if_pos (List.mem_cons_of_mem _ hm)]
      · rw [if_neg hm, if_neg (by simp [hm, Ne.symm he])]
        simp

theorem dset_keys_nodup {β : Type} {k : Place} {v : β} {l : List (Place × β)}
    (h : (l.map Prod.fst).Nodup) : ((dset k v l).map Prod.fst).Nodup := by
  rw [dset_keys]
  by_cases hm : k ∈ l.map Prod.fst
  · rwa [if_pos hm]
  · rw [if_neg hm]
    rw [List.nodup_append]
    refine ⟨h, List.nodup_singleton _, ?_⟩
    intro a ha hb
    simp only [List.mem_singleton] at hb
    exact hm (hb ▸ ha)

theorem strLtL_antisymm : ∀ as bs : List Char,
    strLtL as bs = false → strLtL bs as = false → as = bs := by
  intro as
  induction as with
  | nil => intro bs h1 _; cases bs with
    | nil => rfl
    | cons b bs => simp [strLtL] at h1
  | cons a as ih =>
    intro bs h1 h2
    cases bs with
    | nil => simp [strLtL] at h2
    | cons b bs =>
      rw [strLtL] at h1 h2
      by_cases hab : a < b
      · rw [if_pos hab] at h1; exact absurd h1 (by simp)
      · rw [if_neg hab] at h1
        by_cases hba : b < a
        · rw [if_pos hba] at h2; exact absurd h2 (by simp)
        · rw [if_neg hba] at h1
          rw [if_neg hba, if_neg hab] at h2
          have : a = b := le_antisymm (not_lt.mp hba) (not_lt.mp hab)
          rw [this, ih bs h1 h2]

theorem strLt_antisymm {a b : Place} (h1 : strLt a b = false) (h2 : strLt b a = false) :
    a = b := by
  cases a with
  | mk da =>
    cases b with
    | mk db =>
      rw [strLt] at h1 h2
      simp only at h1 h2
      rw [strLtL_antisymm da db h1 h2]

theorem strLtL_asymm : ∀ as bs : List Char,
    strLtL as bs = true → strLtL bs as = true → False := by
  intro as
  induction as with
  | nil => intro bs h1 h2; cases bs with
    | nil => simp [strLtL] at h1
    | cons b bs => simp [strLtL] at h2
  | cons a as ih =>
    intro bs h1 h2
    cases bs with
    | nil => simp [strLtL] at h1
    | cons b bs =>
      rw [strLtL] at h1 h2
      by_cases hab : a < b
      · rw [if_neg (asymm hab), if_pos hab] at h2
        simp at h2
      · rw [if_neg hab] at h1
        by_cases hba : b < a
        · rw [if_pos hba] at h1; simp at h1
        · rw [if_neg hba] at h1 h2
          rw [if_neg hab] at h2
          exact ih bs h1 h2

theorem sortPair_comm (a b : Place) : sortPair a b = sortPair b a := by
  unfold sortPair
  by_cases h1 : strLt b a = true
  · rw [if_pos h1]
    by_cases h2 : strLt a b = true
    · exfalso
      cases a with
      | mk da =>
        cases b with
        | mk db =>
          rw [strLt] at h1 h2
          simp only at h1 h2
          exact strLtL_asymm _ _ h2 h1
    · rw [if_neg h2]
  · rw [if_neg h1]
    by_cases h2 : strLt a b = true
    · rw [if_pos h2]
    · rw [if_neg h2]
      rw [strLt_antisymm (Bool.eq_false_iff.mpr h2) (Bool.eq_false_iff.mpr h1)]

theorem elookup_map_adjust {β : Type} (k : Place × Place) (f : β → β) :
    ∀ (l : List ((Place × Place) × β)),
      elookup k (l.map (fun kv => if kv.1 = k then (kv.1, f kv.2) else kv)) =
        (elookup k l).map f := by
  intro l
  induction l with
  | nil => simp [elookup]
  | cons kv rest ih =>
    obtain ⟨k1, v1⟩ := kv
    simp only [List.map_cons]
    by_cases he : k1 = k
    · subst he
      rw [if_pos rfl, elookup, elookup]
      simp
    · rw [if_neg he, elookup, elookup]
      simp only [he, if_false, ih]

/-! Settlement of the claims about the mutation operations and the result
shape of queries. -/

/-- C6: for a fixed graph state and fixed arguments, two calls of
`find_path` return identical results.  The embedding of `astar` is a
pure function of the state and the arguments — the source reads only the
module-level graph dictionaries (insertion-ordered), uses no randomness,
and `heapq` breaks ties by the deterministic tuple order — so determinism
holds definitionally. -/
theorem C6_theorem (st : GraphState) (s g : Option Place) :
    astar st s g = astar st s g := rfl

/-- C10: the SPACE handler, which runs `astar` and stores its result,
leaves every graph-model field untouched: `astar` reads the state and
never writes it. -/
theorem C10_theorem (g : GraphState) (ui : UIState) (out : GraphState × UIState)
    (h : handleSpace g ui = some out) : out.1 = g := by
  unfold handleSpace at h
  cases hres : astar g ui.startNode ui.goalNode with
  | ret p c =>
    rw [hres] at h
    simp only [Option.some.injEq] at h
    rw [← h]
  | keyError => rw [hres] at h; cases h
  | fuelOut => rw [hres] at h; cases h

theorem C10_witness :
    handleSpace initT ⟨none, none, none, none, false⟩ =
      some (initT, ⟨none, none, none, none, true⟩) ∧
    ((initT, (⟨none, none, none, none, true⟩ : UIState)) : GraphState × UIState).1 = initT :=
  ⟨rfl, C10_theorem initT ⟨none, none, none, none, false⟩
    (initT, ⟨none, none, none, none, true⟩) rfl⟩

/-- C8: adjusting the traffic of `(a, b)` and of `(b, a)` mutates the same
canonical stored weight and leaves identical states, for both the
increase and the clamped decrease. -/
theorem C8_theorem (st : GraphState) (a b : Place) :
    incTraffic st (a, b) = incTraffic st (b, a) ∧
      decTraffic st (a, b) = decTraffic st (b, a) := by
  unfold incTraffic decTraffic
  rw [sortPair_comm a b]
  exact ⟨rfl, rfl⟩

/-- C5 counterexample: after blocking place `A`, `find_path(A, A)` returns
`NotFound` rather than `Found([A], 0)` — the blocked-endpoint check runs
before the `start == goal` short-circuit — refuting the claim for blocked
places. -/
theorem C5_counterexample :
    "A" ∈ (toggleBlockNode initU "A").blockedNodes ∧
      astar (toggleBlockNode initU "A") (some "A") (some "A") = .ret none none ∧
      astar (toggleBlockNode initU "A") (some "A") (some "A") ≠
        .ret (some ["A"]) (some 0) := by
  refine ⟨by decide, by decide, by decide⟩

/-- C5 (amended): for every graph state and every place `p` that is not a
blocked place, `find_path(p, p) = Found([p], 0)`. -/
theorem C5_theorem (st : GraphState) (p : Place) (h : p ∉ st.blockedNodes) :
    astar st (some p) (some p) = .ret (some [p]) (some 0) := by
  simp only [astar]
  rw [if_neg (by simp [h])]
  simp

theorem C5_witness :
    "A" ∉ initU.blockedNodes ∧
      astar initU (some "A") (some "A") = .ret (some ["A"]) (some 0) :=
  ⟨by decide, C5_theorem initU "A" (by decide)⟩

/-- C4 counterexample: the id `X` is absent from the place set and not
blocked, yet `find_path(X, Bank)` raises a `KeyError` from
`heuristic` (`nodes[X]`) instead of returning `NotFound` — the code
treats only `None` as an absent endpoint. -/
theorem C4_counterexample :
    dlookup "X" initT.nodes = none ∧ "X" ∉ initT.blockedNodes ∧
      astar initT (some "X") (some "Bank") = .keyError := by
  refine ⟨by decide, by decide, by decide⟩

/-- C4 (amended): if `start` or `goal` is `None` (no selection), or either
is a blocked place, `find_path` returns `NotFound` without touching any
dictionary, hence without any error. -/
theorem C4_theorem (st : GraphState) (s g : Option Place)
    (h : s = none ∨ g = none ∨ (∃ a, s = some a ∧ a ∈ st.blockedNodes) ∨
      (∃ b, g = some b ∧ b ∈ st.blockedNodes)) :
    astar st s g = .ret none none := by
  match s, g with
  | none, g => rfl
  | some a, none => rfl
  | some a, some b =>
    rcases h with h | h | ⟨x, hx, hb⟩ | ⟨y, hy, hb⟩
    · cases h
    · cases h
    · injection hx with hx
      subst hx
      simp only [astar]
      rw [if_pos (Or.inl hb)]
    · injection hy with hy
      subst hy
      simp only [astar]
      rw [if_pos (Or.inr hb)]

theorem C4_witness :
    "Bank" ∈ (toggleBlockNode initT "Bank").blockedNodes ∧
      astar (toggleBlockNode initT "Bank") (some "Bank") (some "Mall") = .ret none none :=
  ⟨by decide, C4_theorem (toggleBlockNode initT "Bank") (some "Bank") (some "Mall")
    (Or.inr (Or.inr (Or.inl ⟨"Bank", rfl, by decide⟩)))⟩

theorem elookup_decTraffic (st : GraphState) (e : Place × Place) :
    elookup (sortPair e.1 e.2) (decTraffic st e).weights =
      (elookup (sortPair e.1 e.2) st.weights).map (fun y => max 1 (y - 50)) := by
  unfold decTraffic
  simp only
  rw [elookup_map_adjust (sortPair e.1 e.2) (fun y => max 1 (y - 50)) st.weights]

theorem elookup_incTraffic (st : GraphState) (e : Place × Place) :
    elookup (sortPair e.1 e.2) (incTraffic st e).weights =
      (elookup (sortPair e.1 e.2) st.weights).map (fun y => y + 50) := by
  unfold incTraffic
  simp only
  rw [elookup_map_adjust (sortPair e.1 e.2) (fun y => y + 50) st.weights]

/-- C7: a traffic decrease stores `max(1, w - 50)`, a traffic increase
stores `w + 50 = max(1, w + 50)` for the positive weights of the program,
and `k` repeated decreases store `max(1, w - 50 k)` — the click-driven
adjustment by any `delta = ±50 k` clamps at 1 exactly as claimed. -/
theorem C7_theorem (st : GraphState) (e : Place × Place) (w : Int)
    (hw : elookup (sortPair e.1 e.2) st.weights = some w) (hpos : 1 ≤ w) :
    elookup (sortPair e.1 e.2) (decTraffic st e).weights = some (max 1 (w - 50)) ∧
    elookup (sortPair e.1 e.2) (incTraffic st e).weights = some (max 1 (w + 50)) ∧
    ∀ k : Nat, elookup (sortPair e.1 e.2) ((fun s => decTraffic s e)^[k] st).weights =
      some (max 1 (w - 50 * k)) := by
  refine ⟨?_, ?_, ?_⟩
  · rw [elookup_decTraffic, hw]
    rfl
  · rw [elookup_incTraffic, hw]
    simp only [Option.map_some']
    congr 1
    omega
  · intro k
    induction k with
    | zero =>
      rw [Function.iterate_zero_apply, hw]
      congr 2
      omega
    | succ k ih =>
      rw [Function.iterate_succ_apply']
      rw [elookup_decTraffic ((fun s => decTraffic s e)^[k] st) e, ih]
      simp only [Option.map_some', Option.some.injEq]
      push_cast
      omega

theorem C7_witness :
    elookup (sortPair ("D", "E").1 ("D", "E").2) initU.weights = some 196 ∧
      (1 : Int) ≤ 196 ∧
      elookup (sortPair ("D", "E").1 ("D", "E").2)
        ((fun s => decTraffic s ("D", "E"))^[4] initU).weights =
        some (max 1 (196 - 50 * (4 : Nat))) :=
  ⟨by decide, by decide, (C7_theorem initU ("D", "E") 196 (by decide) (by decide)).2.2 4⟩

theorem buildWeights_pos (nodesL : List (Place × (Int × Int)))
    (adj : List (Place × List Place)) (hd : MinSeparation nodesL adj) :
    ∀ w0, buildWeights nodesL adj = some w0 → ∀ kv ∈ w0, 1 ≤ kv.2 := by
  unfold buildWeights
  refine @List.foldlRecOn _ _ (fun (acc : Option (List ((Place × Place) × Int))) =>
      ∀ w0, acc = some w0 → ∀ kv ∈ w0, 1 ≤ kv.2)
    adj _ (some []) ?_ ?_
  · intro w h kv hkv
    injection h with h
    subst h
    cases hkv
  · intro acc hacc p hp
    refine @List.foldlRecOn _ _ (fun (acc : Option (List ((Place × Place) × Int))) =>
        ∀ w0, acc = some w0 → ∀ kv ∈ w0, 1 ≤ kv.2)
      p.2 _ acc hacc ?_
    intro acc2 hacc2 n2 hn2
    unfold addEdge
    cases acc2 with
    | none => intro w h; cases h
    | some w =>
      simp only
      by_cases hel : (elookup (sortPair p.1 n2) w).isSome = true
      · rw [if_pos hel]
        exact hacc2
      · rw [if_neg hel]
        cases hc1 : dlookup p.1 nodesL with
        | none => intro w' h; cases h
        | some c1 =>
          cases hc2 : dlookup n2 nodesL with
          | none => intro w' h; cases h
          | some c2 =>
            intro w' h
            injection h with h
            subst h
            intro kv hkv
            rcases List.mem_append.mp hkv with hm | hm
            · exact hacc2 w rfl kv hm
            · have hsep := hd p hp n2 hn2
              rw [hc1, hc2] at hsep
              simp only [Option.getD_some] at hsep
              simp only [List.mem_singleton] at hm
              subst hm
              simp only
              have h1 : 1 ≤ (sqDist c1 c2).toNat := by omega
              have h2 := intSqrt_pos h1
              rw [Int.ofNat_eq_coe]
              exact_mod_cast h2

theorem applyOp_weights_pos {st : GraphState} (h : ∀ kv ∈ st.weights, 1 ≤ kv.2)
    (op : Op) : ∀ kv ∈ (applyOp st op).weights, 1 ≤ kv.2 := by
  cases op with
  | blockNode n => exact h
  | blockEdge e => exact h
  | inc e =>
    intro kv hkv
    unfold applyOp incTraffic at hkv
    simp only at hkv
    rcases List.mem_map.mp hkv with ⟨kv0, hm, he⟩
    by_cases hk : kv0.1 = sortPair e.1 e.2
    · rw [if_pos hk] at he
      subst he
      have := h kv0 hm
      show 1 ≤ kv0.2 + 50
      omega
    · rw [if_neg hk] at he
      subst he
      exact h kv0 hm
  | dec e =>
    intro kv hkv
    unfold applyOp decTraffic at hkv
    simp only at hkv
    rcases List.mem_map.mp hkv with ⟨kv0, hm, he⟩
    by_cases hk : kv0.1 = sortPair e.1 e.2
    · rw [if_pos hk] at he
      subst he
      show 1 ≤ max 1 (kv0.2 - 50)
      exact le_max_left _ _
    · rw [if_neg hk] at he
      subst he
      exact h kv0 hm

theorem applyOps_weights_pos {st : GraphState} (h : ∀ kv ∈ st.weights, 1 ≤ kv.2) :
    ∀ ops, ∀ kv ∈ (applyOps st ops).weights, 1 ≤ kv.2 := by
  intro ops
  induction ops generalizing st with
  | nil => exact h
  | cons op ops ih => exact ih (applyOp_weights_pos h op)

/-- C9 counterexample: a construction input with two adjacent places at
identical coordinates yields an initial weight
`int(euclid_distance) = 0 < 1`, refuting the claim that the initial
weights are at least 1 for every pair of endpoint coordinates. -/
theorem C9_counterexample :
    buildWeights [("P", (0, 0)), ("Q", (0, 0))] [("P", ["Q"])] =
      some [(("P", "Q"), 0)] ∧ ¬ (1 ≤ (0 : Int)) := by
  refine ⟨by decide, by decide⟩

/-- C9 (amended): whenever the construction succeeds on an input whose
adjacent coordinate pairs are at Euclidean distance at least 1, every
state reachable from it by any sequence of block toggles and traffic
adjustments has all stored weights at least 1 — the initial floor of the
distance is at least 1, increases keep it, and decreases clamp at 1. -/
theorem C9_theorem (nodesL : List (Place × (Int × Int))) (adj : List (Place × List Place))
    (w0 : List ((Place × Place) × Int)) (hb : buildWeights nodesL adj = some w0)
    (hd : MinSeparation nodesL adj) (ops : List Op) :
    ∀ kv ∈ (applyOps ⟨nodesL, adj, w0, [], []⟩ ops).weights, 1 ≤ kv.2 :=
  applyOps_weights_pos (buildWeights_pos nodesL adj hd w0 hb) ops

theorem C9_witness :
    buildWeights nodesU adjU = some weightsU ∧ MinSeparation nodesU adjU ∧
      1 ≤ ((("D", "E"), (146 : Int)) : (Place × Place) × Int).2 :=
  ⟨by decide, by decide,
    C9_theorem nodesU adjU weightsU (by decide) (by decide) [.dec ("D", "E")]
      (("D", "E"), 146) (by decide)⟩

/-- C1 counterexample: in the `Untitled-1.py` graph after four ALT+clicks
on edge `D-E` (weight `196 → 1`, a reachable state), `G` and `D` are
present and unblocked and a feasible path exists, yet `find_path(G, D)`
returns `Found` with cost `340` although the simple feasible path
`[G, E, D]` costs `179` — the returned cost is not the minimum, so the
claim fails for mutated weight states (the heuristic is inadmissible
there). -/
theorem C1_counterexample :
    WFState stCex ∧
    (dlookup "G" stCex.nodes).isSome = true ∧ (dlookup "D" stCex.nodes).isSome = true ∧
    "G" ∉ stCex.blockedNodes ∧ "D" ∉ stCex.blockedNodes ∧
    SimplePath stCex "G" "D" ["G", "E", "D"] ∧ costL stCex ["G", "E", "D"] = 179 ∧
    astar stCex (some "G") (some "D") = .ret (some ["G", "D"]) (some 340) ∧
    ¬ IsBestCost stCex "G" "D" 340 := by
  refine ⟨by decide, by decide, by decide, by decide, by decide, ?_, by decide, by decide, ?_⟩
  · exact ⟨⟨rfl, rfl, by decide⟩, by decide⟩
  · intro hbest
    have h := hbest.2 ["G", "E", "D"] ⟨⟨rfl, rfl, by decide⟩, by decide⟩
    have hc : costL stCex ["G", "E", "D"] = 179 := by decide
    rw [hc] at h
    omega

/-! Supporting lemmas for the search-loop invariants. -/

theorem selectMin_mem (best : Entry) : ∀ l : List Entry, selectMin best l ∈ best :: l := by
  intro l
  induction l generalizing best with
  | nil => simp [selectMin]
  | cons e rest ih =>
    rw [selectMin]
    by_cases hc : cmpEntry e best = .lt
    · rw [if_pos hc]
      rcases List.mem_cons.mp (ih e) with h | h
      · rw [h]
        exact List.mem_cons_of_mem _ (List.mem_cons_self _ _)
      · exact List.mem_cons_of_mem _ (List.mem_cons_of_mem _ h)
    · rw [if_neg hc]
      rcases List.mem_cons.mp (ih best) with h | h
      · rw [h]
        exact List.mem_cons_self _ _
      · exact List.mem_cons_of_mem _ (List.mem_cons_of_mem _ h)

theorem mem_dset_self {β : Type} (k : Place) (v : β) (l : List (Place × β)) :
    (k, v) ∈ dset k v l :=
  dlookup_eq_some_mem (dlookup_dset_self k v l)

theorem mem_dset_of_mem_ne {β : Type} {kv : Place × β} {k : Place} {v : β}
    (hne : kv.1 ≠ k) : ∀ {l : List (Place × β)}, kv ∈ l → kv ∈ dset k v l := by
  intro l
  induction l with
  | nil => intro h; cases h
  | cons kv0 rest ih =>
    intro h
    rw [dset]
    by_cases he : kv0.1 = k
    · rw [if_pos he]
      rcases List.mem_cons.mp h with h | h
      · exact absurd (h ▸ he) hne
      · exact List.mem_cons_of_mem _ h
    · rw [if_neg he]
      rcases List.mem_cons.mp h with h | h
      · exact h ▸ List.mem_cons_self _ _
      · exact List.mem_cons_of_mem _ (ih h)

theorem reconstructAux_none (came : List (Place × Option Place)) :
    ∀ fuel acc, reconstructAux came fuel none acc = acc := by
  intro fuel acc
  cases fuel <;> rfl

theorem stepOKb_iff {st : GraphState} {u v : Place} :
    stepOKb st u v = true ↔
      v ∈ (dlookup u st.adjacency).getD [] ∧ v ∉ st.blockedNodes ∧
        sortPair u v ∉ st.blockedEdges := by
  unfold stepOKb
  simp [Bool.and_eq_true, and_assoc]

theorem getLast?_concat' {α : Type} (l : List α) (a : α) : (l ++ [a]).getLast? = some a := by
  simp [List.getLast?_concat]

theorem head?_append_left {α : Type} {l : List α} (h : l ≠ []) (l' : List α) :
    (l ++ l').head? = l.head? := by
  cases l with
  | nil => exact absurd rfl h
  | cons x xs => rfl

theorem chainB_snoc (st : GraphState) :
    ∀ (L : List Place) (u v : Place), L.getLast? = some u →
      chainB st (L ++ [v]) = (chainB st L && stepOKb st u v) := by
  intro L
  induction L with
  | nil => intro u v h; cases h
  | cons x xs ih =>
    intro u v h
    cases xs with
    | nil =>
      simp only [List.getLast?_singleton, Option.some.injEq] at h
      subst h
      simp [chainB, Bool.and_comm]
    | cons y ys =>
      have h' : (y :: ys).getLast? = some u := by
        rwa [List.getLast?_cons_cons] at h
      calc chainB st ((x :: y :: ys) ++ [v])
          = (stepOKb st x y && chainB st ((y :: ys) ++ [v])) := rfl
        _ = (stepOKb st x y && (chainB st (y :: ys) && stepOKb st u v)) := by
              rw [ih u v h']
        _ = ((stepOKb st x y && chainB st (y :: ys)) && stepOKb st u v) := by
              rw [Bool.and_assoc]
        _ = (chainB st (x :: y :: ys) && stepOKb st u v) := rfl

theorem costL_snoc (st : GraphState) :
    ∀ (L : List Place) (u v : Place), L.getLast? = some u →
      costL st (L ++ [v]) = costL st L + (elookup (sortPair u v) st.weights).getD 0 := by
  intro L
  induction L with
  | nil => intro u v h; cases h
  | cons x xs ih =>
    intro u v h
    cases xs with
    | nil =>
      simp only [List.getLast?_singleton, Option.some.injEq] at h
      subst h
      simp [costL]
    | cons y ys =>
      have h' : (y :: ys).getLast? = some u := by
        rwa [List.getLast?_cons_cons] at h
      calc costL st ((x :: y :: ys) ++ [v])
          = (elookup (sortPair x y) st.weights).getD 0 + costL st ((y :: ys) ++ [v]) := rfl
        _ = (elookup (sortPair x y) st.weights).getD 0 +
              (costL st (y :: ys) + (elookup (sortPair u v) st.weights).getD 0) := by
              rw [ih u v h']
        _ = ((elookup (sortPair x y) st.weights).getD 0 + costL st (y :: ys)) +
              (elookup (sortPair u v) st.weights).getD 0 := by ring
        _ = costL st (x :: y :: ys) + (elookup (sortPair u v) st.weights).getD 0 := rfl

theorem edgesExistB_snoc (st : GraphState) :
    ∀ (L : List Place) (u v : Place), L.getLast? = some u →
      edgesExistB st (L ++ [v]) =
        (edgesExistB st L && (elookup (sortPair u v) st.weights).isSome) := by
  intro L
  induction L with
  | nil => intro u v h; cases h
  | cons x xs ih =>
    intro u v h
    cases xs with
    | nil =>
      simp only [List.getLast?_singleton, Option.some.injEq] at h
      subst h
      simp [edgesExistB, Bool.and_comm]
    | cons y ys =>
      have h' : (y :: ys).getLast? = some u := by
        rwa [List.getLast?_cons_cons] at h
      calc edgesExistB st ((x :: y :: ys) ++ [v])
          = ((elookup (sortPair x y) st.weights).isSome && edgesExistB st ((y :: ys) ++ [v])) :=
            rfl
        _ = ((elookup (sortPair x y) st.weights).isSome &&
              (edgesExistB st (y :: ys) && (elookup (sortPair u v) st.weights).isSome)) := by
              rw [ih u v h']
        _ = (((elookup (sortPair x y) st.weights).isSome && edgesExistB st (y :: ys)) &&
              (elookup (sortPair u v) st.weights).isSome) := by rw [Bool.and_assoc]
        _ = (edgesExistB st (x :: y :: ys) && (elookup (sortPair u v) st.weights).isSome) := rfl

theorem noBlockedEdgeB_snoc (st : GraphState) :
    ∀ (L : List Place) (u v : Place), L.getLast? = some u →
      noBlockedEdgeB st (L ++ [v]) =
        (noBlockedEdgeB st L && !decide (sortPair u v ∈ st.blockedEdges)) := by
  intro L
  induction L with
  | nil => intro u v h; cases h
  | cons x xs ih =>
    intro u v h
    cases xs with
    | nil =>
      simp only [List.getLast?_singleton, Option.some.injEq] at h
      subst h
      simp [noBlockedEdgeB, Bool.and_comm]
    | cons y ys =>
      have h' : (y :: ys).getLast? = some u := by
        rwa [List.getLast?_cons_cons] at h
      calc noBlockedEdgeB st ((x :: y :: ys) ++ [v])
          = (!decide (sortPair x y ∈ st.blockedEdges) && noBlockedEdgeB st ((y :: ys) ++ [v])) :=
            rfl
        _ = (!decide (sortPair x y ∈ st.blockedEdges) &&
              (noBlockedEdgeB st (y :: ys) && !decide (sortPair u v ∈ st.blockedEdges))) := by
              rw [ih u v h']
        _ = ((!decide (sortPair x y ∈ st.blockedEdges) && noBlockedEdgeB st (y :: ys)) &&
              !decide (sortPair u v ∈ st.blockedEdges)) := by rw [Bool.and_assoc]
        _ = (noBlockedEdgeB st (x :: y :: ys) && !decide (sortPair u v ∈ st.blockedEdges)) :=
            rfl

theorem countP_lt_of_strict {α : Type} (p q : α → Bool) :
    ∀ (l : List α), (∀ a ∈ l, p a = true → q a = true) →
      ∀ x ∈ l, q x = true → p x = false → l.countP p < l.countP q := by
  intro l
  induction l with
  | nil => intro _ x hx; cases hx
  | cons a rest ih =>
    intro hpq x hx hqx hpx
    rw [List.countP_cons, List.countP_cons]
    rcases List.mem_cons.mp hx with h | h
    · subst h
      rw [hqx, hpx]
      have h1 : (if (false = true) then 1 else 0) = 0 := rfl
      have h2 : (if (true = true) then 1 else 0) = 1 := rfl
      rw [h1, h2]
      have : rest.countP p ≤ rest.countP q :=
        List.countP_mono_left (fun a ha hpa => hpq a (List.mem_cons_of_mem _ ha) hpa)
      omega
    · have hrec := ih (fun a ha hpa => hpq a (List.mem_cons_of_mem _ ha) hpa) x h hqx hpx
      by_cases hpa : p a = true
      · rw [if_pos hpa, if_pos (hpq a (List.mem_cons_self _ _) hpa)]
        omega
      · rw [if_neg hpa]
        by_cases hqa : q a = true
        · rw [if_pos hqa]
          omega
        · rw [if_neg hqa]
          omega

theorem reconstruct_spec {st : GraphState} {s : Place} {gs : List (Place × Int)}
    {came : List (Place × Option Place)} (hco : CameOK st s gs came) :
    ∀ fuel (gn : Int) (n : Place) (q : Option Place), (n, q) ∈ came →
      dlookup n gs = some gn → countBelow came gs gn < fuel →
      ∃ L : List Place,
        (∀ acc, reconstructAux came fuel (some n) acc = (L ++ [n]) ++ acc) ∧
        (L ++ [n]).head? = some s ∧ chainB st (L ++ [n]) = true ∧
        costL st (L ++ [n]) = gn ∧ edgesExistB st (L ++ [n]) = true ∧
        noBlockedEdgeB st (L ++ [n]) = true ∧
        (∀ x ∈ L ++ [n], x = s ∨ x ∉ st.blockedNodes) := by
  intro fuel
  induction fuel with
  | zero => intro gn n q _ _ hcount; omega
  | succ fuel ih =>
    intro gn n q hmem hgn hcount
    have hlk : dlookup n came = some q := dlookup_of_mem_nodup hco.keys_nodup hmem
    cases q with
    | none =>
      have hns : n = s := hco.root (n, none) hmem rfl
      subst hns
      have hgn0 : gn = 0 := by
        rw [hco.s_zero] at hgn
        injection hgn with hgn
        exact hgn.symm
      subst hgn0
      refine ⟨[], ?_, rfl, rfl, rfl, rfl, rfl, ?_⟩
      · intro acc
        rw [reconstructAux]
        simp only [hlk, Option.getD_some]
        rw [reconstructAux_none]
        rfl
      · intro x hx
        simp only [List.nil_append, List.mem_singleton] at hx
        exact Or.inl hx
    | some p =>
      obtain ⟨hstep, ⟨q', hq'⟩, gp, gn', w, hgp, hgn', hw, hsum, hwpos⟩ :=
        hco.step (n, some p) hmem p rfl
      have hgneq : gn' = gn := by
        rw [hgn] at hgn'
        injection hgn' with h
        exact h.symm
      subst hgneq
      have hgplt : gp < gn' := by omega
      have hcb : countBelow came gs gp < countBelow came gs gn' := by
        unfold countBelow
        refine countP_lt_of_strict _ _ came ?_ (p, q') hq' ?_ ?_
        · intro a _ hpa
          cases hl : dlookup a.1 gs with
          | none =>
            rw [hl] at hpa
            simp at hpa
          | some va =>
            rw [hl] at hpa
            simp only [Option.getD_some, decide_eq_true_eq] at hpa
            simp only [hl, Option.getD_some, decide_eq_true_eq]
            omega
        · simp only [hgp, Option.getD_some, decide_eq_true_eq]
          exact hgplt
        · simp only [hgp, Option.getD_some, decide_eq_false_iff_not]
          omega
      obtain ⟨L', hrec', hhead', hchain', hcost', hedge', hnbe', hnodes'⟩ :=
        ih gp p q' hq' hgp (by omega)
      have hlast' : (L' ++ [p]).getLast? = some p := getLast?_concat' L' p
      obtain ⟨hadjb, hnb, heb⟩ := stepOKb_iff.mp hstep
      refine ⟨L' ++ [p], ?_, ?_, ?_, ?_, ?_, ?_, ?_⟩
      · intro acc
        rw [reconstructAux]
        simp only [hlk, Option.getD_some]
        rw [hrec' (n :: acc)]
        simp [List.append_assoc]
      · rw [head?_append_left (by simp) [n]]
        exact hhead'
      · rw [chainB_snoc st (L' ++ [p]) p n hlast', hchain', hstep]
        rfl
      · rw [costL_snoc st (L' ++ [p]) p n hlast', hcost', hw]
        simp only [Option.getD_some]
        omega
      · rw [edgesExistB_snoc st (L' ++ [p]) p n hlast', hedge', hw]
        rfl
      · rw [noBlockedEdgeB_snoc st (L' ++ [p]) p n hlast', hnbe']
        simp [heb]
      · intro x hx
        rcases List.mem_append.mp hx with hx | hx
        · exact hnodes' x hx
        · simp only [List.mem_singleton] at hx
          subst hx
          exact Or.inr hnb

theorem relax_push_pres {c : SearchCtx} (hc : CtxOK c) {cur : Place} {gcur : Int}
    {closed' : List Place} {came' : List (Place × Option Place)}
    {fr : List Entry} {gs : List (Place × Int)} {nb : Place} {w : Int} {pn : Int × Int}
    (hinv : Inv2 c fr came' gs closed')
    (hcurc : cur ∈ closed')
    (hgcur : dlookup cur gs = some gcur)
    (hnb : nb ∈ (dlookup cur c.st.adjacency).getD [])
    (hnbc : nb ∉ closed') (hnbb : nb ∉ c.st.blockedNodes)
    (hnbe : sortPair cur nb ∉ c.st.blockedEdges)
    (hew : elookup (sortPair cur nb) c.st.weights = some w)
    (hpn : dlookup nb c.st.nodes = some pn)
    (himpr : ∀ prev, dlookup nb gs = some prev → gcur + w < prev) :
    Inv2 c (fr ++ [⟨gcur + w, sqDist pn c.pt, nb, some cur⟩]) came'
      (dset nb (gcur + w) gs) closed' ∧
    dlookup cur (dset nb (gcur + w) gs) = some gcur := by
  have hwpos : 1 ≤ w := hc.wf_wpos _ (elookup_eq_some_mem hew)
  have hg0 : (0 : Int) ≤ gcur := hinv.cameOK.nonneg (cur, gcur) (dlookup_eq_some_mem hgcur)
  have hnbcur : nb ≠ cur := fun h => hnbc (h ▸ hcurc)
  have hnbs : nb ≠ c.s := by
    intro h
    subst h
    have := himpr 0 hinv.cameOK.s_zero
    omega
  have hcurlater : dlookup cur (dset nb (gcur + w) gs) = some gcur := by
    rw [dlookup_dset_ne nb cur _ (Ne.symm hnbcur)]
    exact hgcur
  have hfrozen : ∀ n, n ∈ closed' → dlookup n (dset nb (gcur + w) gs) = dlookup n gs := by
    intro n hn
    exact dlookup_dset_ne nb n _ (fun h => hnbc (h ▸ hn)) gs
  refine ⟨⟨?_, ?_, ?_, ?_, ?_, ?_, ?_, ?_, ?_, ?_, ?_⟩, hcurlater⟩
  · exact dset_keys_nodup hinv.gs_keysnodup
  · intro kv hkv
    rcases mem_dset hkv with h | h
    · rw [h]
      exact hnbb
    · exact hinv.gs_unblocked kv h
  · intro kv hkv
    rcases mem_dset hkv with h | h
    · rw [h]
      simp [hpn]
    · exact hinv.gs_nodes kv h
  · refine ⟨hinv.cameOK.keys_nodup, hinv.cameOK.root, ?_, ?_, ?_⟩
    · intro pr hpr p hp
      obtain ⟨hst, hq, gp, gn, w', hgp, hgn, hw', hsum, hwp⟩ :=
        hinv.cameOK.step pr hpr p hp
      have hpcl : p ∈ closed' := by
        obtain ⟨q, hq'⟩ := hq
        exact hinv.came_closed (p, q) hq'
      have hprc : pr.1 ∈ closed' := hinv.came_closed pr hpr
      exact ⟨hst, hq, gp, gn, w', by rw [hfrozen p hpcl]; exact hgp,
        by rw [hfrozen pr.1 hprc]; exact hgn, hw', hsum, hwp⟩
    · rw [dlookup_dset_ne nb c.s _ (Ne.symm hnbs)]
      exact hinv.cameOK.s_zero
    · intro kv hkv
      rcases mem_dset hkv with h | h
      · rw [h]
        simp only
        omega
      · exact hinv.cameOK.nonneg kv h
  · exact hinv.came_closed
  · intro e he
    rcases List.mem_append.mp he with h | h
    · obtain ⟨v, hv, hvle⟩ := hinv.entry_gs e h
      by_cases hen : e.node = nb
      · refine ⟨gcur + w, by rw [hen]; exact dlookup_dset_self nb _ gs, ?_⟩
        have := himpr v (hen ▸ hv)
        omega
      · exact ⟨v, by rw [dlookup_dset_ne nb e.node _ hen]; exact hv, hvle⟩
    · simp only [List.mem_singleton] at h
      subst h
      exact ⟨gcur + w, dlookup_dset_self nb _ gs, le_refl _⟩
  · intro e he hp
    rcases List.mem_append.mp he with h | h
    · exact hinv.entry_root e h hp
    · simp only [List.mem_singleton] at h
      subst h
      cases hp
  · intro e he p hp
    rcases List.mem_append.mp he with h | h
    · obtain ⟨hst, hpc, hloc, gp, w', hgp, hw', hsum⟩ := hinv.entry_step e h p hp
      exact ⟨hst, hpc, hloc, gp, w', by rw [hfrozen p hpc]; exact hgp, hw', hsum⟩
    · simp only [List.mem_singleton] at h
      subst h
      injection hp with hp
      subst hp
      refine ⟨stepOKb_iff.mpr ⟨hnb, hnbb, hnbe⟩, hcurc, ⟨pn, hpn, rfl⟩,
        gcur, w, hcurlater, hew, rfl⟩
  · intro n hn
    obtain ⟨v, hv⟩ := hinv.closed_gs n hn
    exact ⟨v, by rw [hfrozen n hn]; exact hv⟩
  · exact hinv.closed_came
  · exact hinv.closed_not_t

theorem relaxStep_pres {c : SearchCtx} (hc : CtxOK c) {cur : Place} {gcur : Int}
    {closed' : List Place} {came' : List (Place × Option Place)}
    {fr : List Entry} {gs : List (Place × Int)}
    (hinv : Inv2 c fr came' gs closed')
    (hcurc : cur ∈ closed')
    (hgcur : dlookup cur gs = some gcur)
    {nb : Place} (hnb : nb ∈ (dlookup cur c.st.adjacency).getD [])
    {out : List Entry × List (Place × Int)}
    (hout : relaxStep c.st c.pt cur closed' (fr, gs) nb = some out) :
    Inv2 c out.1 came' out.2 closed' ∧ dlookup cur out.2 = some gcur := by
  unfold relaxStep at hout
  by_cases hskip : nb ∈ closed' ∨ nb ∈ c.st.blockedNodes ∨ sortPair cur nb ∈ c.st.blockedEdges
  · rw [if_pos hskip] at hout
    injection hout with hout
    subst hout
    exact ⟨hinv, hgcur⟩
  · rw [if_neg hskip] at hout
    push_neg at hskip
    obtain ⟨hnbc, hnbb, hnbe⟩ := hskip
    simp only [hgcur] at hout
    cases hew : elookup (sortPair cur nb) c.st.weights with
    | none => rw [hew] at hout; cases hout
    | some w =>
      rw [hew] at hout
      simp only at hout
      cases hprev : dlookup nb gs with
      | none =>
        rw [hprev] at hout
        simp only [if_true] at hout
        cases hpn : dlookup nb c.st.nodes with
        | none => rw [hpn] at hout; cases hout
        | some pn =>
          rw [hpn] at hout
          injection hout with hout
          subst hout
          exact relax_push_pres hc hinv hcurc hgcur hnb hnbc hnbb hnbe hew hpn
            (fun prev hp => by rw [hprev] at hp; cases hp)
      | some prev =>
        rw [hprev] at hout
        by_cases himp : gcur + w < prev
        · rw [if_pos (by simpa using himp)] at hout
          cases hpn : dlookup nb c.st.nodes with
          | none => rw [hpn] at hout; cases hout
          | some pn =>
            rw [hpn] at hout
            injection hout with hout
            subst hout
            refine relax_push_pres hc hinv hcurc hgcur hnb hnbc hnbb hnbe hew hpn ?_
            intro prev' hp
            rw [hprev] at hp
            injection hp with hp
            subst hp
            exact himp
        · rw [if_neg (by simpa using himp)] at hout
          injection hout with hout
          subst hout
          exact ⟨hinv, hgcur⟩

theorem relaxList_pres {c : SearchCtx} (hc : CtxOK c) {cur : Place} {gcur : Int}
    {closed' : List Place} {came' : List (Place × Option Place)}
    (hcurc : cur ∈ closed') :
    ∀ (ns : List Place) (fr : List Entry) (gs : List (Place × Int)),
      Inv2 c fr came' gs closed' → dlookup cur gs = some gcur →
      (∀ v ∈ ns, v ∈ (dlookup cur c.st.adjacency).getD []) →
      ∀ out, relaxList c.st c.pt cur closed' ns (fr, gs) = some out →
        Inv2 c out.1 came' out.2 closed' := by
  intro ns
  induction ns with
  | nil =>
    intro fr gs hinv _ _ out hout
    rw [relaxList] at hout
    injection hout with hout
    subst hout
    exact hinv
  | cons nb rest ih =>
    intro fr gs hinv hgcur hsub out hout
    rw [relaxList] at hout
    cases hstep : relaxStep c.st c.pt cur closed' (fr, gs) nb with
    | none => rw [hstep] at hout; cases hout
    | some acc' =>
      rw [hstep] at hout
      obtain ⟨hinv', hgcur'⟩ :=
        relaxStep_pres hc hinv hcurc hgcur (hsub nb (List.mem_cons_self _ _)) hstep
      exact ih acc'.1 acc'.2 hinv' hgcur'
        (fun v hv => hsub v (List.mem_cons_of_mem _ hv)) out hout

theorem Inv2_mono_frontier {c : SearchCtx} {fr fr' : List Entry}
    {came : List (Place × Option Place)} {gs : List (Place × Int)} {closed : List Place}
    (hinv : Inv2 c fr came gs closed) (hsub : ∀ x ∈ fr', x ∈ fr) :
    Inv2 c fr' came gs closed :=
  ⟨hinv.gs_keysnodup, hinv.gs_unblocked, hinv.gs_nodes, hinv.cameOK, hinv.came_closed,
    fun e he => hinv.entry_gs e (hsub e he),
    fun e he => hinv.entry_root e (hsub e he),
    fun e he => hinv.entry_step e (hsub e he),
    hinv.closed_gs, hinv.closed_came, hinv.closed_not_t⟩

theorem cameOK_after_pop {c : SearchCtx} (hc : CtxOK c) {frontier : List Entry}
    {came : List (Place × Option Place)} {gs : List (Place × Int)} {closed : List Place}
    (hinv : Inv2 c frontier came gs closed) {cur : Entry} (hcurmem : cur ∈ frontier)
    (hveq : dlookup cur.node gs = some cur.g) :
    CameOK c.st c.s gs (dset cur.node cur.parent came) := by
  have hupg : ∀ p, p ∈ closed → ∃ q, (p, q) ∈ dset cur.node cur.parent came := by
    intro p hp
    by_cases hpe : p = cur.node
    · exact ⟨cur.parent, hpe ▸ mem_dset_self cur.node cur.parent came⟩
    · obtain ⟨q, hq⟩ := hinv.closed_came p hp
      exact ⟨q, mem_dset_of_mem_ne hpe hq⟩
  refine ⟨dset_keys_nodup hinv.cameOK.keys_nodup, ?_, ?_, hinv.cameOK.s_zero,
    hinv.cameOK.nonneg⟩
  · intro pr hpr hnone
    rcases mem_dset hpr with h | h
    · rw [h] at hnone ⊢
      simp only at hnone ⊢
      exact (hinv.entry_root cur hcurmem hnone).1
    · exact hinv.cameOK.root pr h hnone
  · intro pr hpr p hp
    rcases mem_dset hpr with h | h
    · subst h
      simp only at hp ⊢
      obtain ⟨hst, hpc, _, gp, w, hgp, hw, hsum⟩ := hinv.entry_step cur hcurmem p hp
      exact ⟨hst, hupg p hpc, gp, cur.g, w, hgp, hveq, hw, hsum,
        hc.wf_wpos _ (elookup_eq_some_mem hw)⟩
    · obtain ⟨hst, ⟨q, hq⟩, gp, gn, w, hgp, hgn, hw, hsum, hwp⟩ :=
        hinv.cameOK.step pr h p hp
      refine ⟨hst, ?_, gp, gn, w, hgp, hgn, hw, hsum, hwp⟩
      by_cases hpe : p = cur.node
      · exact ⟨cur.parent, hpe ▸ mem_dset_self cur.node cur.parent came⟩
      · exact ⟨q, mem_dset_of_mem_ne hpe hq⟩

theorem Inv2_after_pop {c : SearchCtx} (hc : CtxOK c) {frontier : List Entry}
    {came : List (Place × Option Place)} {gs : List (Place × Int)} {closed : List Place}
    (hinv : Inv2 c frontier came gs closed) {cur : Entry} (hcurmem : cur ∈ frontier)
    (hveq : dlookup cur.node gs = some cur.g) (hgoal : cur.node ≠ c.t)
    {rest : List Entry} (hsub : ∀ x ∈ rest, x ∈ frontier) :
    Inv2 c rest (dset cur.node cur.parent came) gs
      (if cur.node ∈ closed then closed else cur.node :: closed) := by
  have hclsub : ∀ x ∈ closed, x ∈ (if cur.node ∈ closed then closed else cur.node :: closed) := by
    intro x hx
    by_cases h : cur.node ∈ closed
    · rwa [if_pos h]
    · rw [if_neg h]
      exact List.mem_cons_of_mem _ hx
  have hcurin : cur.node ∈ (if cur.node ∈ closed then closed else cur.node :: closed) := by
    by_cases h : cur.node ∈ closed
    · rwa [if_pos h]
    · rw [if_neg h]
      exact List.mem_cons_self _ _
  have hmemcl : ∀ x, x ∈ (if cur.node ∈ closed then closed else cur.node :: closed) →
      x = cur.node ∨ x ∈ closed := by
    intro x hx
    by_cases h : cur.node ∈ closed
    · rw [if_pos h] at hx
      exact Or.inr hx
    · rw [if_neg h] at hx
      rcases List.mem_cons.mp hx with hx | hx
      · exact Or.inl hx
      · exact Or.inr hx
  have hupg : ∀ p, p ∈ closed → ∃ q, (p, q) ∈ dset cur.node cur.parent came := by
    intro p hp
    by_cases hpe : p = cur.node
    · exact ⟨cur.parent, hpe ▸ mem_dset_self cur.node cur.parent came⟩
    · obtain ⟨q, hq⟩ := hinv.closed_came p hp
      exact ⟨q, mem_dset_of_mem_ne hpe hq⟩
  refine ⟨hinv.gs_keysnodup, hinv.gs_unblocked, hinv.gs_nodes,
    cameOK_after_pop hc hinv hcurmem hveq, ?_, ?_, ?_, ?_, ?_, ?_, ?_⟩
  · intro pr hpr
    rcases mem_dset hpr with h | h
    · rw [h]
      exact hcurin
    · exact hclsub _ (hinv.came_closed pr h)
  · intro e he
    exact hinv.entry_gs e (hsub e he)
  · intro e he
    exact hinv.entry_root e (hsub e he)
  · intro e he p hp
    obtain ⟨hst, hpc, hloc, gp, w, hgp, hw, hsum⟩ := hinv.entry_step e (hsub e he) p hp
    exact ⟨hst, hclsub _ hpc, hloc, gp, w, hgp, hw, hsum⟩
  · intro n hn
    rcases hmemcl n hn with h | h
    · exact ⟨cur.g, h ▸ hveq⟩
    · exact hinv.closed_gs n h
  · intro n hn
    rcases hmemcl n hn with h | h
    · exact ⟨cur.parent, h ▸ mem_dset_self cur.node cur.parent came⟩
    · exact hupg n h
  · intro hn
    rcases hmemcl c.t hn with h | h
    · exact hgoal h.symm
    · exact hinv.closed_not_t h

theorem goalRet_good {c : SearchCtx} (hc : CtxOK c) {frontier : List Entry}
    {came : List (Place × Option Place)} {gs : List (Place × Int)} {closed : List Place}
    (hinv : Inv2 c frontier came gs closed) {cur : Entry} (hcurmem : cur ∈ frontier)
    (hveq : dlookup cur.node gs = some cur.g) (hgoal : cur.node = c.t) :
    GoodRet c (.ret (some (reconstructPath (dset cur.node cur.parent came) cur.node))
      (dlookup c.t gs)) := by
  have hco := cameOK_after_pop hc hinv hcurmem hveq
  have hgt : dlookup c.t gs = some cur.g := hgoal ▸ hveq
  rw [hgt]
  obtain ⟨L, hrec, hhead, hchain, hcost, hedge, hnbe, hnodes⟩ :=
    reconstruct_spec hco ((dset cur.node cur.parent came).length + 1) cur.g cur.node
      cur.parent (mem_dset_self cur.node cur.parent came) hveq
      (Nat.lt_succ_of_le (List.countP_le_length _))
  have hpath : reconstructPath (dset cur.node cur.parent came) cur.node = L ++ [cur.node] := by
    unfold reconstructPath
    rw [hrec []]
    simp
  rw [hpath]
  show FeasiblePath c.st c.s c.t (L ++ [cur.node]) ∧
    edgesExistB c.st (L ++ [cur.node]) = true ∧ costL c.st (L ++ [cur.node]) = cur.g ∧
    noBlockedNodeB c.st (L ++ [cur.node]) = true ∧ noBlockedEdgeB c.st (L ++ [cur.node]) = true
  refine ⟨⟨hhead, ?_, hchain⟩, hedge, hcost, ?_, hnbe⟩
  · rw [getLast?_concat', hgoal]
  · unfold noBlockedNodeB
    rw [List.all_eq_true]
    intro x hx
    rcases hnodes x hx with h | h
    · subst h
      simp [hc.hsb]
    · simp [h]

theorem astarLoop_zero (st : GraphState) (t : Place) (pt : Int × Int)
    (fr : List Entry) (came : List (Place × Option Place)) (gs : List (Place × Int))
    (closed : List Place) :
    astarLoop st t pt 0 fr came gs closed =
      if fr.isEmpty then .ret none none else .fuelOut := rfl

theorem astarLoop_succ_nil (st : GraphState) (t : Place) (pt : Int × Int) (fuel : Nat)
    (came : List (Place × Option Place)) (gs : List (Place × Int)) (closed : List Place) :
    astarLoop st t pt (fuel + 1) [] came gs closed = .ret none none := rfl

theorem astarLoop_succ_cons (st : GraphState) (t : Place) (pt : Int × Int) (fuel : Nat)
    (e : Entry) (es : List Entry) (came : List (Place × Option Place))
    (gs : List (Place × Int)) (closed : List Place) :
    astarLoop st t pt (fuel + 1) (e :: es) came gs closed =
      (if (match dlookup (selectMin e es).node gs with
           | some b => decide (b < (selectMin e es).g)
           | none => false) = true
       then astarLoop st t pt fuel ((e :: es).erase (selectMin e es)) came gs closed
       else if (selectMin e es).node = t then
         .ret (some (reconstructPath (dset (selectMin e es).node (selectMin e es).parent came)
           (selectMin e es).node)) (dlookup t gs)
       else
         match relaxList st pt (selectMin e es).node
             (if (selectMin e es).node ∈ closed then closed else (selectMin e es).node :: closed)
             ((dlookup (selectMin e es).node st.adjacency).getD [])
             ((e :: es).erase (selectMin e es), gs) with
         | none => .keyError
         | some acc' =>
           astarLoop st t pt fuel acc'.1
             (dset (selectMin e es).node (selectMin e es).parent came) acc'.2
             (if (selectMin e es).node ∈ closed then closed
              else (selectMin e es).node :: closed)) := rfl

theorem astarLoop_good (c : SearchCtx) (hc : CtxOK c) :
    ∀ (fuel : Nat) (frontier : List Entry) (came : List (Place × Option Place))
      (gs : List (Place × Int)) (closed : List Place), Inv2 c frontier came gs closed →
      GoodRet c (astarLoop c.st c.t c.pt fuel frontier came gs closed) := by
  intro fuel
  induction fuel with
  | zero =>
    intro frontier came gs closed _
    rw [astarLoop_zero]
    by_cases h : frontier.isEmpty
    · rw [if_pos h]
      trivial
    · rw [if_neg h]
      trivial
  | succ fuel ih =>
    intro frontier came gs closed hinv
    cases frontier with
    | nil => rw [astarLoop_succ_nil]; trivial
    | cons e es =>
      rw [astarLoop_succ_cons]
      have hcurmem : selectMin e es ∈ e :: es := selectMin_mem e es
      obtain ⟨v, hv, hvle⟩ := hinv.entry_gs _ hcurmem
      rw [hv]
      have hsub : ∀ x ∈ (e :: es).erase (selectMin e es), x ∈ e :: es :=
        fun x hx => List.erase_subset _ _ hx
      by_cases hstale : v < (selectMin e es).g
      · rw [if_pos (by simpa using hstale)]
        exact ih _ came gs closed (Inv2_mono_frontier hinv hsub)
      · rw [if_neg (by simpa using hstale)]
        have hveq : dlookup (selectMin e es).node gs = some (selectMin e es).g := by
          rw [hv]
          congr 1
          omega
        by_cases hgoal : (selectMin e es).node = c.t
        · rw [if_pos hgoal]
          exact goalRet_good hc hinv hcurmem hveq hgoal
        · rw [if_neg hgoal]
          cases hrelax : relaxList c.st c.pt (selectMin e es).node
              (if (selectMin e es).node ∈ closed then closed
               else (selectMin e es).node :: closed)
              ((dlookup (selectMin e es).node c.st.adjacency).getD [])
              ((e :: es).erase (selectMin e es), gs) with
          | none => trivial
          | some acc' =>
            have hinv' := Inv2_after_pop hc hinv hcurmem hveq hgoal hsub
            have hcurc : (selectMin e es).node ∈
                (if (selectMin e es).node ∈ closed then closed
                 else (selectMin e es).node :: closed) := by
              by_cases h : (selectMin e es).node ∈ closed
              · rwa [if_pos h]
              · rw [if_neg h]
                exact List.mem_cons_self _ _
            have hout := relaxList_pres hc hcurc _ _ gs hinv' hveq (fun _ hx => hx) acc' hrelax
            exact ih acc'.1 _ acc'.2 _ hout

theorem astar_ret_good (st : GraphState) (hwf : WFState st) (s g : Option Place)
    (p? : Option (List Place)) (c? : Option Int) (h : astar st s g = .ret p? c?) :
    (p? = none ∧ c? = none) ∨
    (∃ s0 t0 L gn, s = some s0 ∧ g = some t0 ∧ p? = some L ∧ c? = some gn ∧
      L.head? = some s0 ∧ L.getLast? = some t0 ∧ chainB st L = true ∧
      edgesExistB st L = true ∧ costL st L = gn ∧
      noBlockedNodeB st L = true ∧ noBlockedEdgeB st L = true) := by
  obtain ⟨hwf1, hwf2, hwf3, hwf4⟩ := hwf
  cases s with
  | none =>
    rw [show astar st none g = .ret none none from rfl] at h
    injection h with h1 h2
    exact Or.inl ⟨h1.symm, h2.symm⟩
  | some s0 =>
    cases g with
    | none =>
      rw [show astar st (some s0) none = .ret none none from rfl] at h
      injection h with h1 h2
      exact Or.inl ⟨h1.symm, h2.symm⟩
    | some t0 =>
      simp only [astar] at h
      by_cases hbl : s0 ∈ st.blockedNodes ∨ t0 ∈ st.blockedNodes
      · rw [if_pos hbl] at h
        injection h with h1 h2
        exact Or.inl ⟨h1.symm, h2.symm⟩
      · rw [if_neg hbl] at h
        push_neg at hbl
        obtain ⟨hsb, htb⟩ := hbl
        by_cases hst : s0 = t0
        · rw [if_pos hst] at h
          injection h with h1 h2
          refine Or.inr ⟨s0, t0, [s0], 0, rfl, rfl, h1.symm, h2.symm, rfl, ?_, rfl, rfl, rfl,
            ?_, rfl⟩
          · rw [hst]
            rfl
          · unfold noBlockedNodeB
            simp [hsb]
        · rw [if_neg hst] at h
          cases hls : dlookup s0 st.nodes with
          | none =>
            rw [hls] at h
            cases h
          | some ps =>
            rw [hls] at h
            cases hlt : dlookup t0 st.nodes with
            | none =>
              rw [hlt] at h
              cases h
            | some pt =>
              rw [hlt] at h
              have hc : CtxOK ⟨st, s0, t0, ps, pt⟩ :=
                ⟨hwf1, hwf2, hwf3, hwf4, hls, hlt, hsb, htb, hst⟩
              have hinv0 : Inv2 ⟨st, s0, t0, ps, pt⟩ [⟨0, sqDist ps pt, s0, none⟩] []
                  [(s0, 0)] [] := by
                refine ⟨by simp, ?_, ?_, ⟨by simp, ?_, ?_, ?_, ?_⟩, ?_, ?_, ?_, ?_, ?_, ?_, ?_⟩
                · intro kv hkv
                  simp only [List.mem_singleton] at hkv
                  subst hkv
                  exact hsb
                · intro kv hkv
                  simp only [List.mem_singleton] at hkv
                  subst hkv
                  simp [hls]
                · intro pr hpr
                  cases hpr
                · intro pr hpr
                  cases hpr
                · rw [dlookup, if_pos rfl]
                · intro kv hkv
                  simp only [List.mem_singleton] at hkv
                  subst hkv
                  exact le_refl _
                · intro pr hpr
                  cases hpr
                · intro e' he'
                  simp only [List.mem_singleton] at he'
                  subst he'
                  exact ⟨0, by rw [dlookup, if_pos rfl], le_refl _⟩
                · intro e' he' _
                  simp only [List.mem_singleton] at he'
                  subst he'
                  exact ⟨rfl, rfl, rfl⟩
                · intro e' he' p hp
                  simp only [List.mem_singleton] at he'
                  subst he'
                  cases hp
                · intro n hn
                  cases hn
                · intro n hn
                  cases hn
                · intro hn
                  cases hn
              have h' : astarLoop st t0 pt (astarFuel st)
                  [⟨0, sqDist ps pt, s0, none⟩] [] [(s0, 0)] [] = .ret p? c? := h
              have hgood0 := astarLoop_good ⟨st, s0, t0, ps, pt⟩ hc (astarFuel st)
                [⟨0, sqDist ps pt, s0, none⟩] [] [(s0, 0)] [] hinv0
              have hgood : GoodRet ⟨st, s0, t0, ps, pt⟩ (.ret p? c?) := by
                rw [← h']
                exact hgood0
              cases p? with
              | none =>
                cases c? with
                | none => exact Or.inl ⟨rfl, rfl⟩
                | some gn => exact hgood.elim
              | some L =>
                cases c? with
                | none => exact hgood.elim
                | some gn =>
                  obtain ⟨⟨hhead, hlast, hchain⟩, hedge, hcost, hnbn, hnbe⟩ := hgood
                  exact Or.inr ⟨s0, t0, L, gn, rfl, rfl, rfl, rfl, hhead, hlast, hchain,
                    hedge, hcost, hnbn, hnbe⟩

/-- C2: whenever `find_path` returns a `Found` result, the path starts at
`start`, ends at `goal`, every consecutive pair is a listed road of the
graph with a stored canonical weight, and the returned cost is the sum of
the current weights of those roads; the pair is never partially
populated (a path without a cost or a cost without a path). -/
theorem C2_theorem (st : GraphState) (hwf : WFState st) (s g : Option Place)
    (p? : Option (List Place)) (c? : Option Int) (h : astar st s g = .ret p? c?) :
    (p?.isSome ↔ c?.isSome) ∧
    (∀ L gn, p? = some L → c? = some gn →
      ∃ s0 t0, s = some s0 ∧ g = some t0 ∧ L.head? = some s0 ∧ L.getLast? = some t0 ∧
        chainB st L = true ∧ edgesExistB st L = true ∧ costL st L = gn) := by
  rcases astar_ret_good st hwf s g p? c? h with ⟨h1, h2⟩ |
    ⟨s0, t0, L0, gn0, hs, hg, hp, hc2, hhead, hlast, hchain, hedge, hcost, _, _⟩
  · subst h1
    subst h2
    exact ⟨Iff.rfl, fun L gn hL => by cases hL⟩
  · subst hp
    subst hc2
    refine ⟨by simp, ?_⟩
    intro L' gn' hL hg'
    injection hL with hL
    injection hg' with hg'
    subst hL
    subst hg'
    exact ⟨s0, t0, hs, hg, hhead, hlast, hchain, hedge, hcost⟩

theorem C2_witness :
    WFState initT ∧
    (∃ s0 t0, (some "Bank" : Option Place) = some s0 ∧
      (some "Home" : Option Place) = some t0 ∧
      (["Bank", "Cafe", "Gym", "Market", "Home"] : List Place).head? = some s0 ∧
      (["Bank", "Cafe", "Gym", "Market", "Home"] : List Place).getLast? = some t0 ∧
      chainB initT ["Bank", "Cafe", "Gym", "Market", "Home"] = true ∧
      edgesExistB initT ["Bank", "Cafe", "Gym", "Market", "Home"] = true ∧
      costL initT ["Bank", "Cafe", "Gym", "Market", "Home"] = 988) :=
  ⟨by decide, (C2_theorem initT (by decide) (some "Bank") (some "Home")
    (some ["Bank", "Cafe", "Gym", "Market", "Home"]) (some 988) (by decide)).2
    ["Bank", "Cafe", "Gym", "Market", "Home"] 988 rfl rfl⟩

/-- C3: whenever `find_path` returns a `Found` result, the returned path
contains no blocked place, and no consecutive pair of its places has its
canonical road key in the blocked-road set. -/
theorem C3_theorem (st : GraphState) (hwf : WFState st) (s g : Option Place)
    (p? : Option (List Place)) (c? : Option Int) (h : astar st s g = .ret p? c?) :
    ∀ L, p? = some L →
      noBlockedNodeB st L = true ∧ noBlockedEdgeB st L = true := by
  rcases astar_ret_good st hwf s g p? c? h with ⟨h1, _⟩ |
    ⟨s0, t0, L0, gn0, _, _, hp, _, _, _, _, _, _, hnbn, hnbe⟩
  · subst h1
    intro L hL
    cases hL
  · subst hp
    intro L hL
    injection hL with hL
    subst hL
    exact ⟨hnbn, hnbe⟩

theorem C3_witness :
    WFState initT ∧
    noBlockedNodeB initT ["Bank", "Cafe", "Gym", "Market", "Home"] = true ∧
    noBlockedEdgeB initT ["Bank", "Cafe", "Gym", "Market", "Home"] = true :=
  ⟨by decide, C3_theorem initT (by decide) (some "Bank") (some "Home")
    (some ["Bank", "Cafe", "Gym", "Market", "Home"]) (some 988) (by decide)
    ["Bank", "Cafe", "Gym", "Market", "Home"] rfl⟩

/-! Real-number correctness of the tuple comparison `cmpF`: the first
component of a frontier tuple is `g + sqrt hsq`, and `cmpF` decides the
comparison of these reals. -/

theorem compareInt_lt {a b : Int} (h : compare a b = .lt) : a < b :=
  compare_lt_iff_lt.mp h

theorem compareInt_eq {a b : Int} (h : compare a b = .eq) : a = b :=
  compare_eq_iff_eq.mp h

theorem compareInt_gt {a b : Int} (h : compare a b = .gt) : b < a :=
  compare_gt_iff_gt.mp h

theorem le_cancel_sq {a b : ℝ} (ha : 0 ≤ a) (hb : 0 ≤ b) (h : a ^ 2 ≤ b ^ 2) : a ≤ b := by
  by_contra hc
  push_neg at hc
  nlinarith

theorem sqrt_le_of_sq {x y : ℝ} (hy : 0 ≤ y) (h : x ≤ y ^ 2) : Real.sqrt x ≤ y := by
  calc Real.sqrt x ≤ Real.sqrt (y ^ 2) := Real.sqrt_le_sqrt h
    _ = y := Real.sqrt_sq hy

theorem le_sqrt_of_sq {x y : ℝ} (hy : 0 ≤ y) (hx : 0 ≤ x) (h : y ^ 2 ≤ x) :
    y ≤ Real.sqrt x := by
  calc y = Real.sqrt (y ^ 2) := (Real.sqrt_sq hy).symm
    _ ≤ Real.sqrt x := Real.sqrt_le_sqrt h

theorem cmpF_le_real {g1 a1 g2 a2 : Int} (ha1 : 0 ≤ a1) (ha2 : 0 ≤ a2)
    (h : cmpF g1 a1 g2 a2 ≠ .gt) :
    (g1 : ℝ) + Real.sqrt (a1 : ℝ) ≤ (g2 : ℝ) + Real.sqrt (a2 : ℝ) := by
  have hs1 : Real.sqrt (a1 : ℝ) ^ 2 = (a1 : ℝ) := Real.sq_sqrt (by exact_mod_cast ha1)
  have hs2 : Real.sqrt (a2 : ℝ) ^ 2 = (a2 : ℝ) := Real.sq_sqrt (by exact_mod_cast ha2)
  have hn1 : 0 ≤ Real.sqrt (a1 : ℝ) := Real.sqrt_nonneg _
  have hn2 : 0 ≤ Real.sqrt (a2 : ℝ) := Real.sqrt_nonneg _
  simp only [cmpF] at h
  by_cases hA : g1 - g2 < 0 ∧ a1 < (g1 - g2) ^ 2
  · obtain ⟨hm, ha⟩ := hA
    have hmr : (g1 : ℝ) - g2 < 0 := by exact_mod_cast hm
    have har : (a1 : ℝ) < ((g1 : ℝ) - g2) ^ 2 := by
      have : (a1 : ℝ) < ((g1 - g2 : Int) : ℝ) ^ 2 := by exact_mod_cast ha
      push_cast at this
      linarith
    have : Real.sqrt (a1 : ℝ) ≤ -((g1 : ℝ) - g2) :=
      sqrt_le_of_sq (by linarith) (by nlinarith)
    nlinarith
  · rw [if_neg hA] at h
    by_cases hm : 0 ≤ g1 - g2
    · rw [if_pos hm] at h
      have hmr : (0 : ℝ) ≤ (g1 : ℝ) - g2 := by
        have : (0 : ℝ) ≤ ((g1 - g2 : Int) : ℝ) := by exact_mod_cast hm
        push_cast at this
        linarith
      by_cases ht : a2 - (g1 - g2) ^ 2 - a1 < 0
      · rw [if_pos ht] at h
        exact absurd rfl h
      · rw [if_neg ht] at h
        have htr : (0 : ℝ) ≤ (a2 : ℝ) - ((g1 : ℝ) - g2) ^ 2 - a1 := by
          have : (0 : ℝ) ≤ ((a2 - (g1 - g2) ^ 2 - a1 : Int) : ℝ) := by
            exact_mod_cast not_lt.mp ht
          push_cast at this
          linarith
        have h4 : 4 * (g1 - g2) ^ 2 * a1 ≤ (a2 - (g1 - g2) ^ 2 - a1) ^ 2 := by
          rcases hcmp : compare (4 * (g1 - g2) ^ 2 * a1) ((a2 - (g1 - g2) ^ 2 - a1) ^ 2) with
            _ | _ | _
          · exact le_of_lt (compareInt_lt hcmp)
          · exact le_of_eq (compareInt_eq hcmp)
          · rw [hcmp] at h
            exact absurd rfl h
        have h4r : 4 * ((g1 : ℝ) - g2) ^ 2 * a1 ≤
            ((a2 : ℝ) - ((g1 : ℝ) - g2) ^ 2 - a1) ^ 2 := by
          have : ((4 * (g1 - g2) ^ 2 * a1 : Int) : ℝ) ≤
              ((a2 - (g1 - g2) ^ 2 - a1 : Int) : ℝ) ^ 2 := by exact_mod_cast h4
          push_cast at this
          linarith
        have hkey : 2 * ((g1 : ℝ) - g2) * Real.sqrt (a1 : ℝ) ≤
            (a2 : ℝ) - ((g1 : ℝ) - g2) ^ 2 - a1 :=
          le_cancel_sq (by positivity) htr (by nlinarith)
        have hL : (((g1 : ℝ) - g2) + Real.sqrt (a1 : ℝ)) ≤ Real.sqrt (a2 : ℝ) :=
          le_sqrt_of_sq (by positivity) (by exact_mod_cast ha2) (by nlinarith)
        linarith
    · rw [if_neg hm] at h
      push_neg at hm
      have hmr : (g1 : ℝ) - g2 < 0 := by
        have : ((g1 - g2 : Int) : ℝ) < 0 := by exact_mod_cast hm
        push_cast at this
        linarith
      have hage : ((g1 : ℝ) - g2) ^ 2 ≤ (a1 : ℝ) := by
        have hna := not_and.mp hA hm
        have : ((g1 - g2 : Int) : ℝ) ^ 2 ≤ (a1 : ℝ) := by
          exact_mod_cast not_lt.mp hna
        push_cast at this
        linarith
      have hLnn : (0 : ℝ) ≤ ((g1 : ℝ) - g2) + Real.sqrt (a1 : ℝ) := by
        have : -((g1 : ℝ) - g2) ≤ Real.sqrt (a1 : ℝ) :=
          le_sqrt_of_sq (by linarith) (by exact_mod_cast ha1) (by nlinarith)
        linarith
      by_cases ht : 0 < a2 - (g1 - g2) ^ 2 - a1
      · have htr : (0 : ℝ) < (a2 : ℝ) - ((g1 : ℝ) - g2) ^ 2 - a1 := by
          have : (0 : ℝ) < ((a2 - (g1 - g2) ^ 2 - a1 : Int) : ℝ) := by exact_mod_cast ht
          push_cast at this
          linarith
        have hL : (((g1 : ℝ) - g2) + Real.sqrt (a1 : ℝ)) ≤ Real.sqrt (a2 : ℝ) :=
          le_sqrt_of_sq hLnn (by exact_mod_cast ha2) (by nlinarith)
        linarith
      · rw [if_neg ht] at h
        have ht2 : (a2 - (g1 - g2) ^ 2 - a1) ^ 2 ≤ 4 * (g1 - g2) ^ 2 * a1 := by
          rcases hcmp : compare ((a2 - (g1 - g2) ^ 2 - a1) ^ 2) (4 * (g1 - g2) ^ 2 * a1) with
            _ | _ | _
          · exact le_of_lt (compareInt_lt hcmp)
          · exact le_of_eq (compareInt_eq hcmp)
          · rw [hcmp] at h
            exact absurd rfl h
        have h4r : ((a2 : ℝ) - ((g1 : ℝ) - g2) ^ 2 - a1) ^ 2 ≤
            4 * ((g1 : ℝ) - g2) ^ 2 * a1 := by
          have : ((a2 - (g1 - g2) ^ 2 - a1 : Int) : ℝ) ^ 2 ≤
              ((4 * (g1 - g2) ^ 2 * a1 : Int) : ℝ) := by exact_mod_cast ht2
          push_cast at this
          linarith
        have htr : (a2 : ℝ) - ((g1 : ℝ) - g2) ^ 2 - a1 ≤ 0 := by
          have : ((a2 - (g1 - g2) ^ 2 - a1 : Int) : ℝ) ≤ 0 := by
            exact_mod_cast not_lt.mp ht
          push_cast at this
          linarith
        have hkey : -((a2 : ℝ) - ((g1 : ℝ) - g2) ^ 2 - a1) ≤
            -(2 * ((g1 : ℝ) - g2) * Real.sqrt (a1 : ℝ)) := by
          apply le_cancel_sq (by linarith) (by nlinarith)
          nlinarith
        have hL : (((g1 : ℝ) - g2) + Real.sqrt (a1 : ℝ)) ≤ Real.sqrt (a2 : ℝ) :=
          le_sqrt_of_sq hLnn (by exact_mod_cast ha2) (by nlinarith)
        linarith

theorem cmpF_ge_real {g1 a1 g2 a2 : Int} (ha1 : 0 ≤ a1) (ha2 : 0 ≤ a2)
    (h : cmpF g1 a1 g2 a2 ≠ .lt) :
    (g2 : ℝ) + Real.sqrt (a2 : ℝ) ≤ (g1 : ℝ) + Real.sqrt (a1 : ℝ) := by
  have hs1 : Real.sqrt (a1 : ℝ) ^ 2 = (a1 : ℝ) := Real.sq_sqrt (by exact_mod_cast ha1)
  have hs2 : Real.sqrt (a2 : ℝ) ^ 2 = (a2 : ℝ) := Real.sq_sqrt (by exact_mod_cast ha2)
  have hn1 : 0 ≤ Real.sqrt (a1 : ℝ) := Real.sqrt_nonneg _
  have hn2 : 0 ≤ Real.sqrt (a2 : ℝ) := Real.sqrt_nonneg _
  simp only [cmpF] at h
  by_cases hA : g1 - g2 < 0 ∧ a1 < (g1 - g2) ^ 2
  · rw [if_pos hA] at h
    exact absurd rfl h
  · rw [if_neg hA] at h
    by_cases hm : 0 ≤ g1 - g2
    · rw [if_pos hm] at h
      have hmr : (0 : ℝ) ≤ (g1 : ℝ) - g2 := by
        have : (0 : ℝ) ≤ ((g1 - g2 : Int) : ℝ) := by exact_mod_cast hm
        push_cast at this
        linarith
      by_cases ht : a2 - (g1 - g2) ^ 2 - a1 < 0
      · have htr : (a2 : ℝ) - ((g1 : ℝ) - g2) ^ 2 - a1 < 0 := by
          have : ((a2 - (g1 - g2) ^ 2 - a1 : Int) : ℝ) < 0 := by exact_mod_cast ht
          push_cast at this
          linarith
        have hL : Real.sqrt (a2 : ℝ) ≤ ((g1 : ℝ) - g2) + Real.sqrt (a1 : ℝ) :=
          sqrt_le_of_sq (by positivity) (by nlinarith)
        linarith
      · rw [if_neg ht] at h
        have h4 : (a2 - (g1 - g2) ^ 2 - a1) ^ 2 ≤ 4 * (g1 - g2) ^ 2 * a1 := by
          rcases hcmp : compare (4 * (g1 - g2) ^ 2 * a1) ((a2 - (g1 - g2) ^ 2 - a1) ^ 2) with
            _ | _ | _
          · rw [hcmp] at h
            exact absurd rfl h
          · exact le_of_eq (compareInt_eq hcmp).symm
          · exact le_of_lt (compareInt_gt hcmp)
        have htr : (0 : ℝ) ≤ (a2 : ℝ) - ((g1 : ℝ) - g2) ^ 2 - a1 := by
          have : (0 : ℝ) ≤ ((a2 - (g1 - g2) ^ 2 - a1 : Int) : ℝ) := by
            exact_mod_cast not_lt.mp ht
          push_cast at this
          linarith
        have h4r : ((a2 : ℝ) - ((g1 : ℝ) - g2) ^ 2 - a1) ^ 2 ≤
            4 * ((g1 : ℝ) - g2) ^ 2 * a1 := by
          have : ((a2 - (g1 - g2) ^ 2 - a1 : Int) : ℝ) ^ 2 ≤
              ((4 * (g1 - g2) ^ 2 * a1 : Int) : ℝ) := by exact_mod_cast h4
          push_cast at this
          linarith
        have hkey : (a2 : ℝ) - ((g1 : ℝ) - g2) ^ 2 - a1 ≤
            2 * ((g1 : ℝ) - g2) * Real.sqrt (a1 : ℝ) :=
          le_cancel_sq htr (by positivity) (by nlinarith)
        have hL : Real.sqrt (a2 : ℝ) ≤ ((g1 : ℝ) - g2) + Real.sqrt (a1 : ℝ) :=
          sqrt_le_of_sq (by positivity) (by nlinarith)
        linarith
    · rw [if_neg hm] at h
      push_neg at hm
      have hmr : (g1 : ℝ) - g2 < 0 := by
        have : ((g1 - g2 : Int) : ℝ) < 0 := by exact_mod_cast hm
        push_cast at this
        linarith
      have hage : ((g1 : ℝ) - g2) ^ 2 ≤ (a1 : ℝ) := by
        have hna := not_and.mp hA hm
        have : ((g1 - g2 : Int) : ℝ) ^ 2 ≤ (a1 : ℝ) := by
          exact_mod_cast not_lt.mp hna
        push_cast at this
        linarith
      have hLnn : (0 : ℝ) ≤ ((g1 : ℝ) - g2) + Real.sqrt (a1 : ℝ) := by
        have : -((g1 : ℝ) - g2) ≤ Real.sqrt (a1 : ℝ) :=
          le_sqrt_of_sq (by linarith) (by exact_mod_cast ha1) (by nlinarith)
        linarith
      by_cases ht : 0 < a2 - (g1 - g2) ^ 2 - a1
      · rw [if_pos ht] at h
        exact absurd rfl h
      · rw [if_neg ht] at h
        have h4 : 4 * (g1 - g2) ^ 2 * a1 ≤ (a2 - (g1 - g2) ^ 2 - a1) ^ 2 := by
          rcases hcmp : compare ((a2 - (g1 - g2) ^ 2 - a1) ^ 2) (4 * (g1 - g2) ^ 2 * a1) with
            _ | _ | _
          · rw [hcmp] at h
            exact absurd rfl h
          · exact le_of_eq (compareInt_eq hcmp).symm
          · exact le_of_lt (compareInt_gt hcmp)
        have htr : (a2 : ℝ) - ((g1 : ℝ) - g2) ^ 2 - a1 ≤ 0 := by
          have : ((a2 - (g1 - g2) ^ 2 - a1 : Int) : ℝ) ≤ 0 := by
            exact_mod_cast not_lt.mp ht
          push_cast at this
          linarith
        have h4r : 4 * ((g1 : ℝ) - g2) ^ 2 * a1 ≤
            ((a2 : ℝ) - ((g1 : ℝ) - g2) ^ 2 - a1) ^ 2 := by
          have : ((4 * (g1 - g2) ^ 2 * a1 : Int) : ℝ) ≤
              ((a2 - (g1 - g2) ^ 2 - a1 : Int) : ℝ) ^ 2 := by exact_mod_cast h4
          push_cast at this
          linarith
        have hkey : -(2 * ((g1 : ℝ) - g2) * Real.sqrt (a1 : ℝ)) ≤
            -((a2 : ℝ) - ((g1 : ℝ) - g2) ^ 2 - a1) := by
          apply le_cancel_sq (by nlinarith) (by linarith)
          nlinarith
        have hL : Real.sqrt (a2 : ℝ) ≤ ((g1 : ℝ) - g2) + Real.sqrt (a1 : ℝ) :=
          sqrt_le_of_sq hLnn (by nlinarith)
        linarith

theorem cmpEntry_le_real {e1 e2 : Entry} (h1 : 0 ≤ e1.hsq) (h2 : 0 ≤ e2.hsq)
    (h : cmpEntry e1 e2 ≠ .gt) :
    (e1.g : ℝ) + Real.sqrt (e1.hsq : ℝ) ≤ (e2.g : ℝ) + Real.sqrt (e2.hsq : ℝ) := by
  apply cmpF_le_real h1 h2
  intro hgt
  apply h
  unfold cmpEntry
  rw [hgt]
  rfl

theorem cmpEntry_ge_real {e1 e2 : Entry} (h1 : 0 ≤ e1.hsq) (h2 : 0 ≤ e2.hsq)
    (h : cmpEntry e1 e2 ≠ .lt) :
    (e2.g : ℝ) + Real.sqrt (e2.hsq : ℝ) ≤ (e1.g : ℝ) + Real.sqrt (e1.hsq : ℝ) := by
  have hne : cmpF e1.g e1.hsq e2.g e2.hsq ≠ .lt := by
    intro hlt
    apply h
    unfold cmpEntry
    rw [hlt]
    rfl
  exact cmpF_ge_real h1 h2 hne

theorem selectMin_le_real :
    ∀ (l : List Entry) (best : Entry), (∀ e ∈ best :: l, 0 ≤ e.hsq) →
      ∀ x ∈ best :: l,
        ((selectMin best l).g : ℝ) + Real.sqrt ((selectMin best l).hsq : ℝ) ≤
          (x.g : ℝ) + Real.sqrt ((x.hsq : ℝ)) := by
  intro l
  induction l with
  | nil =>
    intro best _ x hx
    simp only [List.mem_singleton] at hx
    subst hx
    exact le_refl _
  | cons e rest ih =>
    intro best hall x hx
    have hbest : (0:Int) ≤ best.hsq := hall best (List.mem_cons_self _ _)
    have he : (0:Int) ≤ e.hsq := hall e (List.mem_cons_of_mem _ (List.mem_cons_self _ _))
    rw [selectMin]
    by_cases hc : cmpEntry e best = .lt
    · rw [if_pos hc]
      have hall' : ∀ y ∈ e :: rest, (0:Int) ≤ y.hsq := by
        intro y hy
        rcases List.mem_cons.mp hy with hy | hy
        · exact hy ▸ he
        · exact hall y (List.mem_cons_of_mem _ (List.mem_cons_of_mem _ hy))
      have hmin := ih e hall'
      have hle : (e.g : ℝ) + Real.sqrt (e.hsq : ℝ) ≤
          (best.g : ℝ) + Real.sqrt (best.hsq : ℝ) :=
        cmpEntry_le_real he hbest (by rw [hc]; intro hcon; cases hcon)
      rcases List.mem_cons.mp hx with hx | hx
      · rw [hx]
        exact le_trans (hmin e (List.mem_cons_self _ _)) hle
      · exact hmin x hx
    · rw [if_neg hc]
      have hall' : ∀ y ∈ best :: rest, (0:Int) ≤ y.hsq := by
        intro y hy
        rcases List.mem_cons.mp hy with hy | hy
        · exact hy ▸ hbest
        · exact hall y (List.mem_cons_of_mem _ (List.mem_cons_of_mem _ hy))
      have hmin := ih best hall'
      have hle : (best.g : ℝ) + Real.sqrt (best.hsq : ℝ) ≤
          (e.g : ℝ) + Real.sqrt (e.hsq : ℝ) :=
        cmpEntry_ge_real he hbest hc
      rcases List.mem_cons.mp hx with hx | hx
      · rw [hx]
        exact hmin best (List.mem_cons_self _ _)
      · rcases List.mem_cons.mp hx with hx | hx
        · rw [hx]
          exact le_trans (hmin best (List.mem_cons_self _ _)) hle
        · exact hmin x (List.mem_cons_of_mem _ hx)

theorem sqDist_nonneg (p q : Int × Int) : 0 ≤ sqDist p q := by
  unfold sqDist
  positivity

theorem sqrt_sqDist_eq_dist (u v : Int × Int) :
    Real.sqrt ((sqDist u v : Int) : ℝ) =
      dist ((⟨(u.1 : ℝ), (u.2 : ℝ)⟩ : ℂ)) (⟨(v.1 : ℝ), (v.2 : ℝ)⟩ : ℂ) := by
  rw [Complex.dist_eq, Complex.abs_apply, Complex.normSq_apply]
  congr 1
  simp only [Complex.sub_re, Complex.sub_im]
  show ((sqDist u v : Int) : ℝ) = ((u.1 : ℝ) - v.1) * ((u.1 : ℝ) - v.1) +
    ((u.2 : ℝ) - v.2) * ((u.2 : ℝ) - v.2)
  unfold sqDist
  push_cast
  ring

theorem sqrt_sqDist_triangle (p q r : Int × Int) :
    Real.sqrt ((sqDist p r : Int) : ℝ) ≤
      Real.sqrt ((sqDist p q : Int) : ℝ) + Real.sqrt ((sqDist q r : Int) : ℝ) := by
  rw [sqrt_sqDist_eq_dist, sqrt_sqDist_eq_dist, sqrt_sqDist_eq_dist]
  exact dist_triangle _ _ _

theorem entry_hsq_spec {c : SearchCtx} (hc : CtxOK c) {frontier : List Entry}
    {came : List (Place × Option Place)} {gs : List (Place × Int)} {closed : List Place}
    (hinv : Inv2 c frontier came gs closed) :
    ∀ e ∈ frontier, ∃ pe, dlookup e.node c.st.nodes = some pe ∧ e.hsq = sqDist pe c.pt := by
  intro e he
  cases hp : e.parent with
  | none =>
    obtain ⟨hn, _, hh⟩ := hinv.entry_root e he hp
    exact ⟨c.ps, hn ▸ hc.hs, hh⟩
  | some p =>
    obtain ⟨_, _, hloc, _⟩ := hinv.entry_step e he p hp
    exact hloc

theorem entry_hsq_nonneg {c : SearchCtx} (hc : CtxOK c) {frontier : List Entry}
    {came : List (Place × Option Place)} {gs : List (Place × Int)} {closed : List Place}
    (hinv : Inv2 c frontier came gs closed) :
    ∀ e ∈ frontier, 0 ≤ e.hsq := by
  intro e he
  obtain ⟨pe, _, hh⟩ := entry_hsq_spec hc hinv e he
  rw [hh]
  exact sqDist_nonneg _ _

theorem adj_mem_of_getD {st : GraphState} {u w : Place}
    (h : w ∈ (dlookup u st.adjacency).getD []) :
    ∃ ns, dlookup u st.adjacency = some ns ∧ (u, ns) ∈ st.adjacency ∧ w ∈ ns := by
  cases hl : dlookup u st.adjacency with
  | none =>
    rw [hl] at h
    simp at h
  | some ns =>
    rw [hl] at h
    exact ⟨ns, rfl, dlookup_eq_some_mem hl, by simpa using h⟩

theorem sqrt_le_weight {c : SearchCtx} (hc : CtxOK c) (hadm : AdmissibleW c.st)
    {u w : Place} {pu pw : Int × Int} {wt : Int}
    (hu : dlookup u c.st.nodes = some pu)
    (hw : dlookup w c.st.nodes = some pw)
    (hadj : w ∈ (dlookup u c.st.adjacency).getD [])
    (hwt : elookup (sortPair u w) c.st.weights = some wt) :
    Real.sqrt ((sqDist pu pw : Int) : ℝ) ≤ (wt : ℝ) := by
  obtain ⟨ns, _, hmem, hwm⟩ := adj_mem_of_getD hadj
  have hbound := hadm (u, ns) hmem w hwm
  simp only [hu, hw, hwt, Option.getD_some] at hbound
  have hwpos : (1 : Int) ≤ wt := hc.wf_wpos _ (elookup_eq_some_mem hwt)
  apply sqrt_le_of_sq (by exact_mod_cast le_trans zero_le_one hwpos)
  have : ((sqDist pu pw : Int) : ℝ) ≤ ((wt : Int) : ℝ) ^ 2 := by exact_mod_cast hbound
  linarith

theorem consistency_chain {c : SearchCtx} (hc : CtxOK c) (hadm : AdmissibleW c.st) :
    ∀ (M : List Place) (u v : Place) (pu pv : Int × Int),
      dlookup u c.st.nodes = some pu → dlookup v c.st.nodes = some pv →
      chainB c.st (u :: M) = true → (u :: M).getLast? = some v →
      Real.sqrt ((sqDist pu c.pt : Int) : ℝ) ≤
        ((costL c.st (u :: M) : Int) : ℝ) + Real.sqrt ((sqDist pv c.pt : Int) : ℝ) := by
  intro M
  induction M with
  | nil =>
    intro u v pu pv hu hv _ hlast
    simp only [List.getLast?_singleton, Option.some.injEq] at hlast
    subst hlast
    rw [hu] at hv
    injection hv with hv
    subst hv
    show Real.sqrt ((sqDist pu c.pt : Int) : ℝ) ≤
      ((0 : Int) : ℝ) + Real.sqrt ((sqDist pu c.pt : Int) : ℝ)
    simp
  | cons w M' ih =>
    intro u v pu pv hu hv hchain hlast
    have hchain' : stepOKb c.st u w = true ∧ chainB c.st (w :: M') = true := by
      rw [show chainB c.st (u :: w :: M') =
        (stepOKb c.st u w && chainB c.st (w :: M')) from rfl] at hchain
      simpa using hchain
    obtain ⟨hstep, hchw⟩ := hchain'
    obtain ⟨hadj, _, _⟩ := stepOKb_iff.mp hstep
    obtain ⟨ns, hns, hmem, hwm⟩ := adj_mem_of_getD hadj
    obtain ⟨hw1, hw2⟩ := hc.wf_adj (u, ns) hmem w hwm
    cases hpw : dlookup w c.st.nodes with
    | none => rw [hpw] at hw1; cases hw1
    | some pw =>
      cases hwt : elookup (sortPair u w) c.st.weights with
      | none => rw [hwt] at hw2; cases hw2
      | some wt =>
        have hlast' : (w :: M').getLast? = some v := by
          rwa [List.getLast?_cons_cons] at hlast
        have hih := ih w v pw pv hpw hv hchw hlast'
        have htri := sqrt_sqDist_triangle pu pw c.pt
        have hwle := sqrt_le_weight hc hadm hu hpw hadj hwt
        have hcost : costL c.st (u :: w :: M') = wt + costL c.st (w :: M') := by
          rw [show costL c.st (u :: w :: M') =
            (elookup (sortPair u w) c.st.weights).getD 0 + costL c.st (w :: M') from rfl,
            hwt]
          rfl
        rw [hcost]
        push_cast
        push_cast at hih
        linarith

theorem costL_nonneg {st : GraphState} (hw : ∀ kv ∈ st.weights, 1 ≤ kv.2) :
    ∀ L : List Place, 0 ≤ costL st L := by
  intro L
  induction L with
  | nil => exact le_refl _
  | cons u R ih =>
    cases R with
    | nil => exact le_refl _
    | cons v R' =>
      show 0 ≤ (elookup (sortPair u v) st.weights).getD 0 + costL st (v :: R')
      have h1 : 0 ≤ (elookup (sortPair u v) st.weights).getD 0 := by
        cases he : elookup (sortPair u v) st.weights with
        | none => exact le_refl _
        | some w =>
          have := hw _ (elookup_eq_some_mem he)
          simp only [Option.getD_some]
          omega
      omega

theorem chainB_cons_of {st : GraphState} {x : Place} {R : List Place}
    (h : chainB st (x :: R) = true) : chainB st R = true := by
  cases R with
  | nil => rfl
  | cons y ys =>
    rw [show chainB st (x :: y :: ys) = (stepOKb st x y && chainB st (y :: ys)) from rfl] at h
    exact (Bool.and_eq_true _ _ ▸ h).2

theorem chainB_suffix {st : GraphState} :
    ∀ (X Y : List Place), chainB st (X ++ Y) = true → chainB st Y = true := by
  intro X
  induction X with
  | nil => intro Y h; exact h
  | cons x X' ih =>
    intro Y h
    exact ih Y (chainB_cons_of h)

theorem chainB_prefix {st : GraphState} :
    ∀ (X Y : List Place), chainB st (X ++ Y) = true → chainB st X = true := by
  intro X
  induction X with
  | nil => intro Y _; rfl
  | cons x1 X' ih =>
    intro Y h
    cases X' with
    | nil => rfl
    | cons x2 X'' =>
      rw [show ((x1 :: x2 :: X'') ++ Y) = x1 :: ((x2 :: X'') ++ Y) from rfl,
        show chainB st (x1 :: ((x2 :: X'') ++ Y)) =
          (stepOKb st x1 x2 && chainB st ((x2 :: X'') ++ Y)) from rfl] at h
      obtain ⟨h1, h2⟩ := Bool.and_eq_true _ _ ▸ h
      rw [show chainB st (x1 :: x2 :: X'') = (stepOKb st x1 x2 && chainB st (x2 :: X'')) from rfl]
      rw [h1, ih Y h2]
      rfl

theorem costL_split {st : GraphState} :
    ∀ (X : List Place) (u : Place) (Y : List Place),
      costL st (X ++ u :: Y) = costL st (X ++ [u]) + costL st (u :: Y) := by
  intro X
  induction X with
  | nil =>
    intro u Y
    rw [List.nil_append, List.nil_append, show costL st [u] = 0 from rfl]
    omega
  | cons x X' ih =>
    intro u Y
    cases X' with
    | nil =>
      show (elookup (sortPair x u) st.weights).getD 0 + costL st (u :: Y) =
        ((elookup (sortPair x u) st.weights).getD 0 + costL st [u]) + costL st (u :: Y)
      rw [show costL st [u] = 0 from rfl]
      omega
    | cons x2 X'' =>
      show (elookup (sortPair x x2) st.weights).getD 0 + costL st ((x2 :: X'') ++ u :: Y) =
        ((elookup (sortPair x x2) st.weights).getD 0 + costL st ((x2 :: X'') ++ [u])) +
          costL st (u :: Y)
      rw [ih u Y]
      omega

theorem getLast?_append_right {α : Type} :
    ∀ (A : List α) (u : α) (C : List α), (A ++ u :: C).getLast? = (u :: C).getLast? := by
  intro A
  induction A with
  | nil => intro u C; rfl
  | cons a A' ih =>
    intro u C
    cases A' with
    | nil => exact List.getLast?_cons_cons
    | cons a2 A'' =>
      rw [show ((a :: a2 :: A'') ++ u :: C) = a :: ((a2 :: A'') ++ u :: C) from rfl,
        show ((a2 :: A'') ++ u :: C) = a2 :: (A'' ++ u :: C) from rfl,
        List.getLast?_cons_cons]
      exact ih u C

theorem first_not_mem_split {S : List Place} {n : Place} (hn : n ∉ S) :
    ∀ (L : List Place), L.getLast? = some n →
      ∃ A u B, L = A ++ u :: B ∧ u ∉ S ∧ ∀ x ∈ A, x ∈ S := by
  intro L
  induction L with
  | nil => intro h; cases h
  | cons u R ih =>
    intro hlast
    by_cases hu : u ∈ S
    · cases R with
      | nil =>
        simp only [List.getLast?_singleton, Option.some.injEq] at hlast
        exact absurd (hlast ▸ hu) hn
      | cons r R' =>
        rw [List.getLast?_cons_cons] at hlast
        obtain ⟨A', u', B', heq, hu', hA'⟩ := ih hlast
        refine ⟨u :: A', u', B', by rw [heq]; rfl, hu', ?_⟩
        intro x hx
        rcases List.mem_cons.mp hx with hx | hx
        · exact hx ▸ hu
        · exact hA' x hx
    · exact ⟨[], u, R, rfl, hu, fun x hx => absurd hx (List.not_mem_nil x)⟩

theorem sortPair_inj {a b c d : Place} (h : sortPair a b = sortPair c d) :
    (a = c ∧ b = d) ∨ (a = d ∧ b = c) := by
  unfold sortPair at h
  by_cases h1 : strLt b a
  · rw [if_pos h1] at h
    by_cases h2 : strLt d c
    · rw [if_pos h2] at h
      injection h with h3 h4
      exact Or.inl ⟨h4, h3⟩
    · rw [if_neg h2] at h
      injection h with h3 h4
      exact Or.inr ⟨h4, h3⟩
  · rw [if_neg h1] at h
    by_cases h2 : strLt d c
    · rw [if_pos h2] at h
      injection h with h3 h4
      exact Or.inr ⟨h3, h4⟩
    · rw [if_neg h2] at h
      injection h with h3 h4
      exact Or.inl ⟨h3, h4⟩

theorem mem_pairsOf :
    ∀ (L : List Place) (p : Place × Place), p ∈ pairsOf L →
      ∃ a b, p = sortPair a b ∧ a ∈ L ∧ b ∈ L := by
  intro L
  induction L with
  | nil => intro p h; cases h
  | cons u R ih =>
    intro p h
    cases R with
    | nil => cases h
    | cons v R' =>
      rcases List.mem_cons.mp h with h | h
      · exact ⟨u, v, h, List.mem_cons_self _ _,
          List.mem_cons_of_mem _ (List.mem_cons_self _ _)⟩
      · obtain ⟨a, b, hab, ha, hb⟩ := ih p h
        exact ⟨a, b, hab, List.mem_cons_of_mem _ ha, List.mem_cons_of_mem _ hb⟩

theorem pairsOf_nodup : ∀ (L : List Place), L.Nodup → (pairsOf L).Nodup := by
  intro L
  induction L with
  | nil => intro _; exact List.nodup_nil
  | cons u R ih =>
    intro hnd
    obtain ⟨hu, hR⟩ := List.nodup_cons.mp hnd
    cases R with
    | nil => exact List.nodup_nil
    | cons v R' =>
      rw [show pairsOf (u :: v :: R') = sortPair u v :: pairsOf (v :: R') from rfl,
        List.nodup_cons]
      refine ⟨?_, ih hR⟩
      intro hmem
      obtain ⟨a, b, hab, ha, hb⟩ := mem_pairsOf (v :: R') _ hmem
      rcases sortPair_inj hab with ⟨h1, _⟩ | ⟨h1, _⟩
      · exact hu (h1 ▸ ha)
      · exact hu (h1 ▸ hb)

theorem costL_eq_pairs {st : GraphState} :
    ∀ (L : List Place),
      costL st L = ((pairsOf L).map (fun k => (elookup k st.weights).getD 0)).sum := by
  intro L
  induction L with
  | nil => rfl
  | cons u R ih =>
    cases R with
    | nil => rfl
    | cons v R' =>
      show (elookup (sortPair u v) st.weights).getD 0 + costL st (v :: R') =
        ((sortPair u v :: pairsOf (v :: R')).map
          (fun k => (elookup k st.weights).getD 0)).sum
      rw [List.map_cons, List.sum_cons, ih]

theorem map_congr_mem {α β : Type} {f g : α → β} :
    ∀ {l : List α}, (∀ x ∈ l, f x = g x) → l.map f = l.map g := by
  intro l
  induction l with
  | nil => intro _; rfl
  | cons x xs ih =>
    intro h
    rw [List.map_cons, List.map_cons, h x (List.mem_cons_self _ _),
      ih (fun y hy => h y (List.mem_cons_of_mem _ hy))]

theorem elookup_middle_ne {β : Type} {k k' : Place × Place} (hne : k' ≠ k) (w : β) :
    ∀ (W1 W2 : List ((Place × Place) × β)),
      elookup k' (W1 ++ (k, w) :: W2) = elookup k' (W1 ++ W2) := by
  intro W1
  induction W1 with
  | nil =>
    intro W2
    rw [List.nil_append, List.nil_append, elookup, if_neg (fun hh : k = k' => hne hh.symm)]
  | cons kv W1' ih =>
    intro W2
    rw [List.cons_append, List.cons_append, elookup, elookup]
    by_cases h : kv.1 = k'
    · rw [if_pos h, if_pos h]
    · rw [if_neg h, if_neg h]
      exact ih W2

theorem sum_vals_nonneg :
    ∀ (W : List ((Place × Place) × Int)), (∀ kv ∈ W, 0 ≤ kv.2) →
      0 ≤ (W.map (fun kv => kv.2)).sum := by
  intro W
  induction W with
  | nil => intro _; exact le_refl _
  | cons kv rest ih =>
    intro h
    rw [List.map_cons, List.sum_cons]
    have h1 := h kv (List.mem_cons_self _ _)
    have h2 := ih (fun x hx => h x (List.mem_cons_of_mem _ hx))
    omega

theorem key_sum_bound :
    ∀ (K : List (Place × Place)) (W : List ((Place × Place) × Int)),
      K.Nodup → (∀ kv ∈ W, 0 ≤ kv.2) →
      (K.map (fun k => (elookup k W).getD 0)).sum ≤ (W.map (fun kv => kv.2)).sum := by
  intro K
  induction K with
  | nil =>
    intro W _ hvals
    exact sum_vals_nonneg W hvals
  | cons k K' ih =>
    intro W hnd hvals
    obtain ⟨hk, hK'⟩ := List.nodup_cons.mp hnd
    rw [List.map_cons, List.sum_cons]
    cases he : elookup k W with
    | none =>
      have := ih W hK' hvals
      simp only [Option.getD_none]
      omega
    | some w =>
      obtain ⟨W1, W2, hW⟩ := List.append_of_mem (elookup_eq_some_mem he)
      have hmape : K'.map (fun k' => (elookup k' W).getD 0) =
          K'.map (fun k' => (elookup k' (W1 ++ W2)).getD 0) := by
        refine map_congr_mem ?_
        intro x hx
        rw [hW, elookup_middle_ne (show x ≠ k from fun hh => hk (hh ▸ hx)) w W1 W2]
      have hvals' : ∀ kv ∈ W1 ++ W2, 0 ≤ kv.2 := by
        intro kv hkv
        refine hvals kv ?_
        rw [hW]
        rcases List.mem_append.mp hkv with h | h
        · exact List.mem_append.mpr (Or.inl h)
        · exact List.mem_append.mpr (Or.inr (List.mem_cons_of_mem _ h))
      have hih := ih (W1 ++ W2) hK' hvals'
      rw [hmape] at *
      have hsum : (W.map (fun kv => kv.2)).sum =
          ((W1 ++ W2).map (fun kv => kv.2)).sum + w := by
        rw [hW]
        simp [List.map_append, List.sum_append]
        omega
      simp only [Option.getD_some]
      omega

theorem sumW_cast :
    ∀ (W : List ((Place × Place) × Int)), (∀ kv ∈ W, 0 ≤ kv.2) →
      ((W.foldr (fun kv acc => kv.2.toNat + acc) 0 : Nat) : Int) =
        (W.map (fun kv => kv.2)).sum := by
  intro W
  induction W with
  | nil => intro _; rfl
  | cons kv rest ih =>
    intro h
    rw [List.foldr_cons, List.map_cons, List.sum_cons,
      ← ih (fun x hx => h x (List.mem_cons_of_mem _ hx))]
    have h1 := h kv (List.mem_cons_self _ _)
    push_cast
    omega

theorem simple_cost_le_sumW {st : GraphState} (hw : ∀ kv ∈ st.weights, 1 ≤ kv.2)
    {L : List Place} (hnd : L.Nodup) : costL st L ≤ (sumW st : Int) := by
  rw [costL_eq_pairs]
  have hvals : ∀ kv ∈ st.weights, (0 : Int) ≤ kv.2 :=
    fun kv h => le_trans zero_le_one (hw kv h)
  have hkb := key_sum_bound (pairsOf L) st.weights (pairsOf_nodup L hnd) hvals
  have hse := sumW_cast st.weights hvals
  unfold sumW
  omega

theorem exists_simple_of_feasible {st : GraphState} (hw : ∀ kv ∈ st.weights, 1 ≤ kv.2) :
    ∀ (n : Nat) (L : List Place) (s t : Place), L.length ≤ n → FeasiblePath st s t L →
      ∃ M, SimplePath st s t M ∧ costL st M ≤ costL st L ∧ M ⊆ L := by
  intro n
  induction n with
  | zero =>
    intro L s t hlen hfeas
    obtain ⟨hh, _, _⟩ := hfeas
    cases L with
    | nil => cases hh
    | cons u R => simp at hlen
  | succ m ih =>
    intro L s t hlen hfeas
    obtain ⟨hh, hl, hch⟩ := hfeas
    cases L with
    | nil => cases hh
    | cons u R =>
      have hs : u = s := by
        injection hh
      subst hs
      by_cases huR : u ∈ R
      · obtain ⟨B, C, hR⟩ := List.append_of_mem huR
        have hLeq : u :: R = (u :: B) ++ u :: C := by rw [hR]; rfl
        have hch2 : chainB st ((u :: B) ++ u :: C) = true := hLeq ▸ hch
        have hch' : chainB st (u :: C) = true := chainB_suffix (u :: B) (u :: C) hch2
        have hlast' : (u :: C).getLast? = some t := by
          rw [hLeq, getLast?_append_right] at hl
          exact hl
        have hlen' : (u :: C).length ≤ m := by
          rw [hLeq] at hlen
          simp [List.length_append] at hlen ⊢
          omega
        obtain ⟨M, hsp, hcost, hsub⟩ := ih (u :: C) u t hlen' ⟨rfl, hlast', hch'⟩
        refine ⟨M, hsp, ?_, ?_⟩
        · have hsplit := @costL_split st (u :: B) u C
          have hnn : 0 ≤ costL st ((u :: B) ++ [u]) := costL_nonneg hw _
          rw [hLeq]
          omega
        · intro x hx
          have hx' := hsub hx
          rw [hLeq]
          rcases List.mem_cons.mp hx' with h | h
          · exact h ▸ List.mem_append.mpr (Or.inr (List.mem_cons_self _ _))
          · exact List.mem_append.mpr (Or.inr (List.mem_cons_of_mem _ h))
      · cases R with
        | nil =>
          exact ⟨[u], ⟨⟨rfl, hl, rfl⟩, List.nodup_singleton u⟩, le_refl _,
            fun x hx => hx⟩
        | cons v R' =>
          have hst2 : stepOKb st u v = true ∧ chainB st (v :: R') = true := by
            rw [show chainB st (u :: v :: R') =
              (stepOKb st u v && chainB st (v :: R')) from rfl] at hch
            simpa using hch
          have hlast' : (v :: R').getLast? = some t := by
            rwa [List.getLast?_cons_cons] at hl
          have hlen' : (v :: R').length ≤ m := by
            simp at hlen ⊢
            omega
          obtain ⟨M, ⟨⟨hMh, hMl, hMc⟩, hMnd⟩, hMcost, hMsub⟩ :=
            ih (v :: R') v t hlen' ⟨rfl, hlast', hst2.2⟩
          cases M with
          | nil => cases hMh
          | cons mv M' =>
            have hmv : mv = v := by injection hMh
            subst hmv
            refine ⟨u :: mv :: M', ⟨⟨rfl, ?_, ?_⟩, ?_⟩, ?_, ?_⟩
            · rw [List.getLast?_cons_cons]
              exact hMl
            · rw [show chainB st (u :: mv :: M') =
                (stepOKb st u mv && chainB st (mv :: M')) from rfl, hst2.1, hMc]
              rfl
            · rw [List.nodup_cons]
              exact ⟨fun hmem => huR (hMsub hmem), hMnd⟩
            · show (elookup (sortPair u mv) st.weights).getD 0 + costL st (mv :: M') ≤
                (elookup (sortPair u mv) st.weights).getD 0 + costL st (mv :: R')
              omega
            · intro x hx
              rcases List.mem_cons.mp hx with h | h
              · exact h ▸ List.mem_cons_self _ _
              · exact List.mem_cons_of_mem _ (hMsub h)

theorem first_open_bound {c : SearchCtx} (hc : CtxOK c)
    {frontier : List Entry} {came : List (Place × Option Place)} {gs : List (Place × Int)}
    {closed : List Place} (hinv : Inv1 c frontier came gs closed)
    {L : List Place} {n : Place} (hfeas : FeasiblePath c.st c.s n L) (hn : n ∉ closed) :
    ∃ A u B gu, L = A ++ u :: B ∧ u ∉ closed ∧ dlookup u gs = some gu ∧
      gu ≤ costL c.st (A ++ [u]) := by
  obtain ⟨hh, hl, hch⟩ := hfeas
  obtain ⟨A, u, B, heq, hu, hA⟩ := first_not_mem_split hn L hl
  rcases List.eq_nil_or_concat A with hAe | ⟨A', p, hAc⟩
  · subst hAe
    rw [heq] at hh
    have hus : u = c.s := by injection hh
    refine ⟨[], u, B, 0, heq, hu, ?_, le_refl _⟩
    rw [hus]
    exact hinv.base.cameOK.s_zero
  · rw [List.concat_eq_append] at hAc
    subst hAc
    have hp : p ∈ closed := hA p (List.mem_append.mpr (Or.inr (List.mem_cons_self _ _)))
    have hLshape : L = A' ++ (p :: u :: B) := by
      rw [heq, List.append_assoc]
      rfl
    have hchsuf : chainB c.st (p :: u :: B) = true :=
      chainB_suffix A' (p :: u :: B) (hLshape ▸ hch)
    have hstep : stepOKb c.st p u = true := by
      rw [show chainB c.st (p :: u :: B) = (stepOKb c.st p u && chainB c.st (u :: B)) from rfl]
        at hchsuf
      exact (Bool.and_eq_true _ _ ▸ hchsuf).1
    obtain ⟨gu, gp, w, hgu, hgp, hw, hle⟩ := hinv.closed_edge p hp u hstep
    have hpre : FeasiblePath c.st c.s p (A' ++ [p]) := by
      refine ⟨?_, getLast?_concat' A' p, ?_⟩
      · rw [heq, head?_append_left (by simp) (u :: B)] at hh
        exact hh
      · exact chainB_prefix (A' ++ [p]) (u :: B) (heq ▸ hch)
    have hbest := hinv.closed_best p hp gp hgp (A' ++ [p]) hpre
    have hcsp := @costL_split c.st A' p [u]
    have hcpu : costL c.st [p, u] = w := by
      show (elookup (sortPair p u) c.st.weights).getD 0 + 0 = w
      rw [hw]
      simp
    refine ⟨A' ++ [p], u, B, gu, heq, hu, hgu, ?_⟩
    rw [List.append_assoc]
    show gu ≤ costL c.st (A' ++ p :: [u])
    omega

theorem crossing {c : SearchCtx} (hc : CtxOK c) (hadm : AdmissibleW c.st)
    {frontier : List Entry} {came : List (Place × Option Place)} {gs : List (Place × Int)}
    {closed : List Place} (hinv : Inv1 c frontier came gs closed)
    {cur : Entry} (hmem : cur ∈ frontier)
    (hmin : ∀ x ∈ frontier, (cur.g : ℝ) + Real.sqrt ((cur.hsq : ℝ)) ≤
      (x.g : ℝ) + Real.sqrt ((x.hsq : ℝ)))
    (hnc : cur.node ∉ closed) :
    ∀ L, FeasiblePath c.st c.s cur.node L → cur.g ≤ costL c.st L := by
  intro L hfeas
  obtain ⟨A, u, B, gu, heq, hu, hgu, hb⟩ := first_open_bound hc hinv hfeas hnc
  obtain ⟨e, he, hen, heg⟩ := hinv.live (u, gu) (dlookup_eq_some_mem hgu) hu
  obtain ⟨pu, hpu, hhsq⟩ := entry_hsq_spec hc hinv.base e he
  rw [hen] at hpu
  obtain ⟨pc, hpc, hchsq⟩ := entry_hsq_spec hc hinv.base cur hmem
  have hchB : chainB c.st (u :: B) = true :=
    chainB_suffix A (u :: B) (heq ▸ hfeas.2.2)
  have hlB : (u :: B).getLast? = some cur.node := by
    have := hfeas.2.1
    rw [heq, getLast?_append_right] at this
    exact this
  have hcons := consistency_chain hc hadm B u cur.node pu pc hpu hpc hchB hlB
  have hminx := hmin e he
  rw [heg, hhsq, hchsq] at hminx
  have hreal : (cur.g : ℝ) ≤ ((gu + costL c.st (u :: B) : Int) : ℝ) := by
    push_cast
    push_cast at hcons
    linarith
  have hint : cur.g ≤ gu + costL c.st (u :: B) := by exact_mod_cast hreal
  have hcsp := @costL_split c.st A u B
  rw [heq] at *
  omega

theorem Inv1_stale {c : SearchCtx} {e : Entry} {es : List Entry}
    {came : List (Place × Option Place)} {gs : List (Place × Int)} {closed : List Place}
    (hinv : Inv1 c (e :: es) came gs closed) {cur : Entry}
    {v : Int} (hv : dlookup cur.node gs = some v) (hstale : v < cur.g) :
    Inv1 c ((e :: es).erase cur) came gs closed := by
  refine ⟨Inv2_mono_frontier hinv.base (fun x hx => List.erase_subset _ _ hx),
    hinv.reach, ?_, hinv.closed_best, hinv.closed_edge⟩
  intro kv hkv hncl
  obtain ⟨e', he', hn', hg'⟩ := hinv.live kv hkv hncl
  have hne : e' ≠ cur := by
    intro hcur
    have hlk : dlookup kv.1 gs = some kv.2 :=
      dlookup_of_mem_nodup hinv.base.gs_keysnodup hkv
    rw [← hn', hcur] at hlk
    rw [hlk] at hv
    injection hv with hv
    rw [hcur] at hg'
    omega
  exact ⟨e', (List.mem_erase_of_ne hne).mpr he', hn', hg'⟩

theorem Inv1R_after_pop {c : SearchCtx} (hc : CtxOK c) (hadm : AdmissibleW c.st)
    {e : Entry} {es : List Entry}
    {came : List (Place × Option Place)} {gs : List (Place × Int)} {closed : List Place}
    (hinv : Inv1 c (e :: es) came gs closed) {cur : Entry} (hcur : cur = selectMin e es)
    (hveq : dlookup cur.node gs = some cur.g) (hgoal : cur.node ≠ c.t) :
    Inv1R c cur.node ((dlookup cur.node c.st.adjacency).getD [])
      ((e :: es).erase cur) (dset cur.node cur.parent came) gs
      (if cur.node ∈ closed then closed else cur.node :: closed) := by
  have hcurmem : cur ∈ e :: es := hcur ▸ selectMin_mem e es
  have hsub : ∀ x ∈ (e :: es).erase cur, x ∈ e :: es :=
    fun x hx => List.erase_subset _ _ hx
  have hclsub : ∀ x ∈ closed, x ∈ (if cur.node ∈ closed then closed else cur.node :: closed) := by
    intro x hx
    by_cases h : cur.node ∈ closed
    · rwa [if_pos h]
    · rw [if_neg h]
      exact List.mem_cons_of_mem _ hx
  have hcurin : cur.node ∈ (if cur.node ∈ closed then closed else cur.node :: closed) := by
    by_cases h : cur.node ∈ closed
    · rwa [if_pos h]
    · rw [if_neg h]
      exact List.mem_cons_self _ _
  have hmemcl : ∀ x, x ∈ (if cur.node ∈ closed then closed else cur.node :: closed) →
      x = cur.node ∨ x ∈ closed := by
    intro x hx
    by_cases h : cur.node ∈ closed
    · rw [if_pos h] at hx
      exact Or.inr hx
    · rw [if_neg h] at hx
      exact List.mem_cons.mp hx
  have hmin : ∀ x ∈ e :: es, (cur.g : ℝ) + Real.sqrt ((cur.hsq : ℝ)) ≤
      (x.g : ℝ) + Real.sqrt ((x.hsq : ℝ)) := by
    rw [hcur]
    exact selectMin_le_real es e (entry_hsq_nonneg hc hinv.base)
  refine ⟨Inv2_after_pop hc hinv.base hcurmem hveq hgoal hsub, ?_, ?_, ?_, ?_, ?_⟩
  · intro kv hkv
    obtain ⟨L, hf, hnd, hsubn, hcost⟩ := hinv.reach kv hkv
    refine ⟨L, hf, hnd, ?_, hcost⟩
    intro x hx
    rcases hsubn x hx with h | h
    · exact Or.inl h
    · exact Or.inr (hclsub x h)
  · intro kv hkv hncl
    have hkc : kv.1 ∉ closed := fun h => hncl (hclsub _ h)
    have hkcur : kv.1 ≠ cur.node := fun h => hncl (h ▸ hcurin)
    obtain ⟨e', he', hn', hg'⟩ := hinv.live kv hkv hkc
    have hne : e' ≠ cur := fun h => hkcur (by rw [← hn', h])
    exact ⟨e', (List.mem_erase_of_ne hne).mpr he', hn', hg'⟩
  · intro n hn v hv L hL
    rcases hmemcl n hn with h | h
    · by_cases hcl : n ∈ closed
      · exact hinv.closed_best n hcl v hv L hL
      · subst h
        rw [hveq] at hv
        injection hv with hv
        subst hv
        exact crossing hc hadm hinv hcurmem hmin hcl L hL
    · exact hinv.closed_best n h v hv L hL
  · intro n hn hne v hv
    rcases hmemcl n hn with h | h
    · exact absurd h hne
    · exact hinv.closed_edge n h v hv
  · intro v hv
    exact Or.inl (stepOKb_iff.mp hv).1

theorem potential_eq (st : GraphState) (gs : List (Place × Int)) :
    potential st gs =
      (st.nodes.map (fun nv =>
        ((dlookup nv.1 gs).map Int.toNat).getD (2 * sumW st + 2))).sum := by
  unfold potential
  congr 1
  refine map_congr_mem ?_
  intro x _
  cases dlookup x.1 gs <;> rfl

theorem potential_dset_some {st : GraphState} (hnd : (st.nodes.map Prod.fst).Nodup)
    {nb : Place} {pn : Int × Int} (hpn : dlookup nb st.nodes = some pn)
    (tv : Int) {gs : List (Place × Int)} {prev : Int} (hprev : dlookup nb gs = some prev) :
    potential st (dset nb tv gs) + prev.toNat = potential st gs + tv.toNat := by
  obtain ⟨N1, N2, hN⟩ := List.append_of_mem (dlookup_eq_some_mem hpn)
  have hnd' := hnd
  rw [hN, List.map_append, List.map_cons, List.nodup_append] at hnd'
  obtain ⟨hnd1, hnd2, hdisj⟩ := hnd'
  rw [List.nodup_cons] at hnd2
  have hkey1 : ∀ x ∈ N1, x.1 ≠ nb := by
    intro x hx h
    have hm : x.1 ∈ N1.map Prod.fst := List.mem_map_of_mem Prod.fst hx
    rw [h] at hm
    exact hdisj hm (List.mem_cons_self _ _)
  have hkey2 : ∀ x ∈ N2, x.1 ≠ nb := by
    intro x hx h
    have hm : x.1 ∈ N2.map Prod.fst := List.mem_map_of_mem Prod.fst hx
    rw [h] at hm
    exact hnd2.1 hm
  rw [potential_eq, potential_eq, hN, List.map_append, List.map_append,
    List.map_cons, List.map_cons, List.sum_append, List.sum_append,
    List.sum_cons, List.sum_cons]
  have e1 : N1.map (fun nv => ((dlookup nv.1 (dset nb tv gs)).map Int.toNat).getD
        (2 * sumW st + 2)) =
      N1.map (fun nv => ((dlookup nv.1 gs).map Int.toNat).getD (2 * sumW st + 2)) :=
    map_congr_mem (fun x hx => by rw [dlookup_dset_ne nb x.1 tv (hkey1 x hx) gs])
  have e2 : N2.map (fun nv => ((dlookup nv.1 (dset nb tv gs)).map Int.toNat).getD
        (2 * sumW st + 2)) =
      N2.map (fun nv => ((dlookup nv.1 gs).map Int.toNat).getD (2 * sumW st + 2)) :=
    map_congr_mem (fun x hx => by rw [dlookup_dset_ne nb x.1 tv (hkey2 x hx) gs])
  rw [e1, e2]
  simp only [dlookup_dset_self, hprev, Option.map_some', Option.getD_some]
  omega

theorem potential_dset_none {st : GraphState} (hnd : (st.nodes.map Prod.fst).Nodup)
    {nb : Place} {pn : Int × Int} (hpn : dlookup nb st.nodes = some pn)
    (tv : Int) {gs : List (Place × Int)} (hprev : dlookup nb gs = none) :
    potential st (dset nb tv gs) + (2 * sumW st + 2) = potential st gs + tv.toNat := by
  obtain ⟨N1, N2, hN⟩ := List.append_of_mem (dlookup_eq_some_mem hpn)
  have hnd' := hnd
  rw [hN, List.map_append, List.map_cons, List.nodup_append] at hnd'
  obtain ⟨hnd1, hnd2, hdisj⟩ := hnd'
  rw [List.nodup_cons] at hnd2
  have hkey1 : ∀ x ∈ N1, x.1 ≠ nb := by
    intro x hx h
    have hm : x.1 ∈ N1.map Prod.fst := List.mem_map_of_mem Prod.fst hx
    rw [h] at hm
    exact hdisj hm (List.mem_cons_self _ _)
  have hkey2 : ∀ x ∈ N2, x.1 ≠ nb := by
    intro x hx h
    have hm : x.1 ∈ N2.map Prod.fst := List.mem_map_of_mem Prod.fst hx
    rw [h] at hm
    exact hnd2.1 hm
  rw [potential_eq, potential_eq, hN, List.map_append, List.map_append,
    List.map_cons, List.map_cons, List.sum_append, List.sum_append,
    List.sum_cons, List.sum_cons]
  have e1 : N1.map (fun nv => ((dlookup nv.1 (dset nb tv gs)).map Int.toNat).getD
        (2 * sumW st + 2)) =
      N1.map (fun nv => ((dlookup nv.1 gs).map Int.toNat).getD (2 * sumW st + 2)) :=
    map_congr_mem (fun x hx => by rw [dlookup_dset_ne nb x.1 tv (hkey1 x hx) gs])
  have e2 : N2.map (fun nv => ((dlookup nv.1 (dset nb tv gs)).map Int.toNat).getD
        (2 * sumW st + 2)) =
      N2.map (fun nv => ((dlookup nv.1 gs).map Int.toNat).getD (2 * sumW st + 2)) :=
    map_congr_mem (fun x hx => by rw [dlookup_dset_ne nb x.1 tv (hkey2 x hx) gs])
  rw [e1, e2]
  simp only [dlookup_dset_self, hprev, Option.map_some', Option.map_none',
    Option.getD_some, Option.getD_none]
  omega

theorem Inv1R_push {c : SearchCtx} (hc : CtxOK c) {cur : Place} {gcur : Int}
    {closed' : List Place} {came' : List (Place × Option Place)}
    {fr : List Entry} {gs : List (Place × Int)} {ns' : List Place} {nb : Place}
    {w : Int} {pn : Int × Int}
    (hinv : Inv1R c cur (nb :: ns') fr came' gs closed')
    (hcurc : cur ∈ closed')
    (hgcur : dlookup cur gs = some gcur)
    (hnb : nb ∈ (dlookup cur c.st.adjacency).getD [])
    (hnbc : nb ∉ closed') (hnbb : nb ∉ c.st.blockedNodes)
    (hnbe : sortPair cur nb ∉ c.st.blockedEdges)
    (hew : elookup (sortPair cur nb) c.st.weights = some w)
    (hpn : dlookup nb c.st.nodes = some pn)
    (himpr : ∀ prev, dlookup nb gs = some prev → gcur + w < prev) :
    Inv1R c cur ns' (fr ++ [⟨gcur + w, sqDist pn c.pt, nb, some cur⟩]) came'
      (dset nb (gcur + w) gs) closed' ∧
    dlookup cur (dset nb (gcur + w) gs) = some gcur ∧
    gcur + w ≤ (sumW c.st : Int) := by
  obtain ⟨hbase2, hcurlater⟩ :=
    relax_push_pres hc hinv.base hcurc hgcur hnb hnbc hnbb hnbe hew hpn himpr
  have hstep : stepOKb c.st cur nb = true := stepOKb_iff.mpr ⟨hnb, hnbb, hnbe⟩
  have hnbcur : nb ≠ cur := fun h => hnbc (h ▸ hcurc)
  obtain ⟨P, hfP, hndP, hsubP, hcostP⟩ := hinv.reach (cur, gcur) (dlookup_eq_some_mem hgcur)
  obtain ⟨hPh, hPl, hPc⟩ := hfP
  have hPne : P ≠ [] := by
    intro h
    rw [h] at hPh
    cases hPh
  have hfN : FeasiblePath c.st c.s nb (P ++ [nb]) := by
    refine ⟨?_, getLast?_concat' P nb, ?_⟩
    · rw [head?_append_left hPne]
      exact hPh
    · rw [chainB_snoc c.st P cur nb hPl, hPc, hstep]
      rfl
  have hndN : (P ++ [nb]).Nodup := by
    rw [List.nodup_append]
    refine ⟨hndP, List.nodup_singleton _, ?_⟩
    intro x hx hx2
    simp only [List.mem_singleton] at hx2
    subst hx2
    rcases hsubP x hx with h | h
    · exact hnbcur h
    · exact hnbc h
  have hcostN : costL c.st (P ++ [nb]) = gcur + w := by
    rw [costL_snoc c.st P cur nb hPl, hcostP, hew]
    simp
  have hbound : gcur + w ≤ (sumW c.st : Int) := by
    rw [← hcostN]
    exact simple_cost_le_sumW hc.wf_wpos hndN
  refine ⟨⟨hbase2, ?_, ?_, ?_, ?_, ?_⟩, hcurlater, hbound⟩
  · intro kv hkv
    rcases mem_dset hkv with h | h
    · rw [h]
      refine ⟨P ++ [nb], hfN, hndN, ?_, hcostN⟩
      intro x hx
      rcases List.mem_append.mp hx with h1 | h1
      · rcases hsubP x h1 with h2 | h2
        · exact Or.inr (h2 ▸ hcurc)
        · exact Or.inr h2
      · simp only [List.mem_singleton] at h1
        exact Or.inl h1
    · exact hinv.reach kv h
  · intro kv hkv hncl
    by_cases hkn : kv.1 = nb
    · have h1 : dlookup kv.1 (dset nb (gcur + w) gs) = some kv.2 :=
        dlookup_of_mem_nodup (dset_keys_nodup hinv.base.gs_keysnodup) hkv
      rw [hkn, dlookup_dset_self] at h1
      injection h1 with h1
      exact ⟨⟨gcur + w, sqDist pn c.pt, nb, some cur⟩,
        List.mem_append.mpr (Or.inr (List.mem_cons_self _ _)), hkn.symm, h1⟩
    · have h2 : kv ∈ gs := by
        rcases mem_dset hkv with h | h
        · exact absurd (by rw [h]) hkn
        · exact h
      obtain ⟨e', he', hn', hg'⟩ := hinv.live kv h2 hncl
      exact ⟨e', List.mem_append.mpr (Or.inl he'), hn', hg'⟩
  · intro n hn v hv L hL
    rw [dlookup_dset_ne nb n _ (fun h => hnbc (h ▸ hn)) gs] at hv
    exact hinv.closed_best n hn v hv L hL
  · intro n hn hne v' hv'
    obtain ⟨gv, gn, w', hgv, hgn, hw', hle⟩ := hinv.closed_edge n hn hne v' hv'
    have hngs : dlookup n (dset nb (gcur + w) gs) = some gn := by
      rw [dlookup_dset_ne nb n _ (fun h => hnbc (h ▸ hn)) gs]
      exact hgn
    by_cases hvn : v' = nb
    · rw [hvn] at hgv hw' ⊢
      have himp := himpr gv hgv
      exact ⟨gcur + w, gn, w', dlookup_dset_self nb _ gs, hngs, hw', by omega⟩
    · refine ⟨gv, gn, w', ?_, hngs, hw', hle⟩
      rw [dlookup_dset_ne nb v' _ hvn gs]
      exact hgv
  · intro v' hv'
    rcases hinv.cur_edge v' hv' with h | h
    · rcases List.mem_cons.mp h with h1 | h1
      · rw [h1]
        exact Or.inr ⟨gcur + w, gcur, w, dlookup_dset_self nb _ gs, hcurlater, hew, le_refl _⟩
      · exact Or.inl h1
    · obtain ⟨gv, gn, w', hgv, hgn, hw', hle⟩ := h
      have hgn' : dlookup cur (dset nb (gcur + w) gs) = some gn := by
        rw [dlookup_dset_ne nb cur _ (Ne.symm hnbcur) gs]
        exact hgn
      by_cases hvn : v' = nb
      · rw [hvn] at hgv hw' ⊢
        have himp := himpr gv hgv
        exact Or.inr ⟨gcur + w, gn, w', dlookup_dset_self nb _ gs, hgn', hw', by omega⟩
      · refine Or.inr ⟨gv, gn, w', ?_, hgn', hw', hle⟩
        rw [dlookup_dset_ne nb v' _ hvn gs]
        exact hgv

theorem relaxStep_inv1 {c : SearchCtx} (hc : CtxOK c) {cur : Place} {gcur : Int}
    {closed' : List Place} {came' : List (Place × Option Place)}
    {fr : List Entry} {gs : List (Place × Int)} {ns' : List Place} {nb : Place}
    (hinv : Inv1R c cur (nb :: ns') fr came' gs closed')
    (hcurc : cur ∈ closed')
    (hgcur : dlookup cur gs = some gcur)
    (hnb : nb ∈ (dlookup cur c.st.adjacency).getD [])
    {out : List Entry × List (Place × Int)}
    (hout : relaxStep c.st c.pt cur closed' (fr, gs) nb = some out) :
    Inv1R c cur ns' out.1 came' out.2 closed' ∧ dlookup cur out.2 = some gcur ∧
      out.1.length + potential c.st out.2 ≤ fr.length + potential c.st gs := by
  unfold relaxStep at hout
  by_cases hskip : nb ∈ closed' ∨ nb ∈ c.st.blockedNodes ∨ sortPair cur nb ∈ c.st.blockedEdges
  · rw [if_pos hskip] at hout
    injection hout with hout
    subst hout
    refine ⟨⟨hinv.base, hinv.reach, hinv.live, hinv.closed_best, hinv.closed_edge, ?_⟩,
      hgcur, le_refl _⟩
    intro v hv
    rcases hinv.cur_edge v hv with h | h
    · rcases List.mem_cons.mp h with h1 | h1
      · rw [h1] at hv ⊢
        obtain ⟨_, hnbb, hnbe⟩ := stepOKb_iff.mp hv
        have hnbcl : nb ∈ closed' := by
          rcases hskip with h | h | h
          · exact h
          · exact absurd h hnbb
          · exact absurd h hnbe
        obtain ⟨ns0, _, hmem0, hv0⟩ := adj_mem_of_getD hnb
        obtain ⟨_, hwsome⟩ := hc.wf_adj _ hmem0 nb hv0
        cases hew : elookup (sortPair cur nb) c.st.weights with
        | none =>
          rw [hew] at hwsome
          simp at hwsome
        | some w =>
          obtain ⟨gnb, hgnb⟩ := hinv.base.closed_gs nb hnbcl
          obtain ⟨P, hfP, _, _, hcostP⟩ :=
            hinv.reach (cur, gcur) (dlookup_eq_some_mem hgcur)
          obtain ⟨hPh, hPl, hPc⟩ := hfP
          have hPne : P ≠ [] := by
            intro h2
            rw [h2] at hPh
            cases hPh
          have hfN : FeasiblePath c.st c.s nb (P ++ [nb]) := by
            refine ⟨?_, getLast?_concat' P nb, ?_⟩
            · rw [head?_append_left hPne]
              exact hPh
            · rw [chainB_snoc c.st P cur nb hPl, hPc, hv]
              rfl
          have hcostN : costL c.st (P ++ [nb]) = gcur + w := by
            rw [costL_snoc c.st P cur nb hPl, hcostP, hew]
            simp
          have hle := hinv.closed_best nb hnbcl gnb hgnb (P ++ [nb]) hfN
          rw [hcostN] at hle
          exact Or.inr ⟨gnb, gcur, w, hgnb, hgcur, hew, hle⟩
      · exact Or.inl h1
    · exact Or.inr h
  · rw [if_neg hskip] at hout
    push_neg at hskip
    obtain ⟨hnbc, hnbb, hnbe⟩ := hskip
    simp only [hgcur] at hout
    cases hew : elookup (sortPair cur nb) c.st.weights with
    | none => rw [hew] at hout; cases hout
    | some w =>
      rw [hew] at hout
      simp only at hout
      cases hprev : dlookup nb gs with
      | none =>
        rw [hprev] at hout
        simp only [if_true] at hout
        cases hpn : dlookup nb c.st.nodes with
        | none => rw [hpn] at hout; cases hout
        | some pn =>
          rw [hpn] at hout
          injection hout with hout
          subst hout
          obtain ⟨hinv', hcur', hbound⟩ :=
            Inv1R_push hc hinv hcurc hgcur hnb hnbc hnbb hnbe hew hpn
              (fun prev hp => by rw [hprev] at hp; cases hp)
          refine ⟨hinv', hcur', ?_⟩
          have hpot := potential_dset_none hc.wf_nodes hpn (gcur + w) hprev
          have hg0 : 0 ≤ gcur :=
            hinv.base.cameOK.nonneg (cur, gcur) (dlookup_eq_some_mem hgcur)
          have hw1 : 1 ≤ w := hc.wf_wpos _ (elookup_eq_some_mem hew)
          simp only [List.length_append, List.length_singleton]
          omega
      | some prev =>
        rw [hprev] at hout
        by_cases himp : gcur + w < prev
        · rw [if_pos (by simpa using himp)] at hout
          cases hpn : dlookup nb c.st.nodes with
          | none => rw [hpn] at hout; cases hout
          | some pn =>
            rw [hpn] at hout
            injection hout with hout
            subst hout
            obtain ⟨hinv', hcur', hbound⟩ :=
              Inv1R_push hc hinv hcurc hgcur hnb hnbc hnbb hnbe hew hpn
                (fun prev' hp => by
                  rw [hprev] at hp
                  injection hp with hp
                  rw [← hp]
                  exact himp)
            refine ⟨hinv', hcur', ?_⟩
            have hpot := potential_dset_some hc.wf_nodes hpn (gcur + w) hprev
            have hg0 : 0 ≤ gcur :=
              hinv.base.cameOK.nonneg (cur, gcur) (dlookup_eq_some_mem hgcur)
            have hw1 : 1 ≤ w := hc.wf_wpos _ (elookup_eq_some_mem hew)
            simp only [List.length_append, List.length_singleton]
            omega
        · rw [if_neg (by simpa using himp)] at hout
          injection hout with hout
          subst hout
          refine ⟨⟨hinv.base, hinv.reach, hinv.live, hinv.closed_best, hinv.closed_edge, ?_⟩,
            hgcur, le_refl _⟩
          intro v hv
          rcases hinv.cur_edge v hv with h | h
          · rcases List.mem_cons.mp h with h1 | h1
            · rw [h1]
              exact Or.inr ⟨prev, gcur, w, hprev, hgcur, hew, by omega⟩
            · exact Or.inl h1
          · exact Or.inr h

theorem relaxList_inv1 {c : SearchCtx} (hc : CtxOK c) {cur : Place} {gcur : Int}
    {closed' : List Place} {came' : List (Place × Option Place)}
    (hcurc : cur ∈ closed') :
    ∀ (ns : List Place) (fr : List Entry) (gs : List (Place × Int)),
      Inv1R c cur ns fr came' gs closed' → dlookup cur gs = some gcur →
      (∀ v ∈ ns, v ∈ (dlookup cur c.st.adjacency).getD []) →
      ∀ out, relaxList c.st c.pt cur closed' ns (fr, gs) = some out →
        Inv1R c cur [] out.1 came' out.2 closed' ∧
        out.1.length + potential c.st out.2 ≤ fr.length + potential c.st gs := by
  intro ns
  induction ns with
  | nil =>
    intro fr gs hinv _ _ out hout
    rw [relaxList] at hout
    injection hout with hout
    subst hout
    exact ⟨hinv, le_refl _⟩
  | cons nb rest ih =>
    intro fr gs hinv hgcur hsub out hout
    rw [relaxList] at hout
    cases hstep : relaxStep c.st c.pt cur closed' (fr, gs) nb with
    | none => rw [hstep] at hout; cases hout
    | some acc' =>
      rw [hstep] at hout
      obtain ⟨hinv', hgcur', hm⟩ :=
        relaxStep_inv1 hc hinv hcurc hgcur (hsub nb (List.mem_cons_self _ _)) hstep
      obtain ⟨hinv2, hm'⟩ := ih acc'.1 acc'.2 hinv' hgcur'
        (fun v hv => hsub v (List.mem_cons_of_mem _ hv)) out hout
      exact ⟨hinv2, le_trans hm' hm⟩

theorem relaxStep_some {c : SearchCtx} (hc : CtxOK c) {cur : Place} {gcur : Int}
    {closed' : List Place} (hcurc : cur ∈ closed')
    {fr : List Entry} {gs : List (Place × Int)} {nb : Place}
    (hgcur : dlookup cur gs = some gcur)
    (hnb : nb ∈ (dlookup cur c.st.adjacency).getD []) :
    ∃ out, relaxStep c.st c.pt cur closed' (fr, gs) nb = some out ∧
      dlookup cur out.2 = some gcur := by
  unfold relaxStep
  by_cases hskip : nb ∈ closed' ∨ nb ∈ c.st.blockedNodes ∨ sortPair cur nb ∈ c.st.blockedEdges
  · rw [if_pos hskip]
    exact ⟨(fr, gs), rfl, hgcur⟩
  · rw [if_neg hskip]
    push_neg at hskip
    obtain ⟨hnbc, _, _⟩ := hskip
    have hnbcur : nb ≠ cur := fun h => hnbc (h ▸ hcurc)
    obtain ⟨ns0, _, hmem0, hv0⟩ := adj_mem_of_getD hnb
    obtain ⟨hn1, hn2⟩ := hc.wf_adj _ hmem0 nb hv0
    simp only [hgcur]
    cases hew : elookup (sortPair cur nb) c.st.weights with
    | none =>
      rw [hew] at hn2
      simp at hn2
    | some w =>
      cases hpn : dlookup nb c.st.nodes with
      | none =>
        rw [hpn] at hn1
        simp at hn1
      | some pn =>
        cases hprev : dlookup nb gs with
        | none =>
          show ∃ out,
            (if (true : Bool) = true then
              some (fr ++ [⟨gcur + w, sqDist pn c.pt, nb, some cur⟩],
                dset nb (gcur + w) gs)
             else some (fr, gs)) = some out ∧ dlookup cur out.2 = some gcur
          rw [if_pos rfl]
          refine ⟨(fr ++ [⟨gcur + w, sqDist pn c.pt, nb, some cur⟩],
            dset nb (gcur + w) gs), rfl, ?_⟩
          rw [dlookup_dset_ne nb cur _ (Ne.symm hnbcur) gs]
          exact hgcur
        | some prev =>
          show ∃ out,
            (if (decide (gcur + w < prev)) = true then
              some (fr ++ [⟨gcur + w, sqDist pn c.pt, nb, some cur⟩],
                dset nb (gcur + w) gs)
             else some (fr, gs)) = some out ∧ dlookup cur out.2 = some gcur
          by_cases himp : gcur + w < prev
          · have hd : decide (gcur + w < prev) = true := by simpa using himp
            rw [hd, if_pos rfl]
            refine ⟨(fr ++ [⟨gcur + w, sqDist pn c.pt, nb, some cur⟩],
              dset nb (gcur + w) gs), rfl, ?_⟩
            rw [dlookup_dset_ne nb cur _ (Ne.symm hnbcur) gs]
            exact hgcur
          · have hd : decide (gcur + w < prev) = false := by simpa using himp
            rw [hd, if_neg (by simp)]
            exact ⟨(fr, gs), rfl, hgcur⟩

theorem relaxList_some {c : SearchCtx} (hc : CtxOK c) {cur : Place} {gcur : Int}
    {closed' : List Place} (hcurc : cur ∈ closed') :
    ∀ (ns : List Place) (fr : List Entry) (gs : List (Place × Int)),
      dlookup cur gs = some gcur →
      (∀ v ∈ ns, v ∈ (dlookup cur c.st.adjacency).getD []) →
      ∃ out, relaxList c.st c.pt cur closed' ns (fr, gs) = some out := by
  intro ns
  induction ns with
  | nil =>
    intro fr gs _ _
    exact ⟨(fr, gs), rfl⟩
  | cons nb rest ih =>
    intro fr gs hgcur hsub
    obtain ⟨out1, hout1, hcur1⟩ :=
      relaxStep_some hc hcurc hgcur (hsub nb (List.mem_cons_self _ _))
    obtain ⟨out2, hout2⟩ := ih out1.1 out1.2 hcur1
      (fun v hv => hsub v (List.mem_cons_of_mem _ hv))
    refine ⟨out2, ?_⟩
    rw [relaxList, hout1]
    exact hout2

theorem Inv1R_done {c : SearchCtx} {cur : Place} {fr : List Entry}
    {came : List (Place × Option Place)} {gs : List (Place × Int)} {closed : List Place}
    (hinv : Inv1R c cur [] fr came gs closed) :
    Inv1 c fr came gs closed := by
  refine ⟨hinv.base, hinv.reach, hinv.live, hinv.closed_best, ?_⟩
  intro n hn v hv
  by_cases hne : n = cur
  · subst hne
    rcases hinv.cur_edge v hv with h | h
    · cases h
    · exact h
  · exact hinv.closed_edge n hn hne v hv

theorem frontier_nonempty {c : SearchCtx} (hc : CtxOK c)
    {frontier : List Entry} {came : List (Place × Option Place)} {gs : List (Place × Int)}
    {closed : List Place} (hinv : Inv1 c frontier came gs closed)
    {P : List Place} (hP : FeasiblePath c.st c.s c.t P) :
    frontier ≠ [] := by
  obtain ⟨A, u, B, gu, _, hu, hgu, _⟩ :=
    first_open_bound hc hinv hP hinv.base.closed_not_t
  obtain ⟨e, he, _, _⟩ := hinv.live (u, gu) (dlookup_eq_some_mem hgu) hu
  intro h
  rw [h] at he
  cases he

theorem sum_le_length_mul :
    ∀ (l : List Nat) (B : Nat), (∀ x ∈ l, x ≤ B) → l.sum ≤ l.length * B := by
  intro l
  induction l with
  | nil => intro B _; simp
  | cons x xs ih =>
    intro B h
    rw [List.sum_cons, List.length_cons]
    have h1 := h x (List.mem_cons_self _ _)
    have h2 := ih B (fun y hy => h y (List.mem_cons_of_mem _ hy))
    have : (xs.length + 1) * B = xs.length * B + B := by ring
    omega

theorem potential_init_le (st : GraphState) (s : Place) :
    potential st [(s, 0)] ≤ st.nodes.length * (2 * sumW st + 2) := by
  rw [potential_eq]
  have hb := sum_le_length_mul
    (st.nodes.map (fun nv => ((dlookup nv.1 [(s, 0)]).map Int.toNat).getD (2 * sumW st + 2)))
    (2 * sumW st + 2) ?_
  · rwa [List.length_map] at hb
  · intro x hx
    obtain ⟨nv, _, hnv⟩ := List.mem_map.mp hx
    cases hd : dlookup nv.1 [(s, (0 : Int))] with
    | none =>
      rw [hd] at hnv
      simp at hnv
      omega
    | some v =>
      have hv : v = 0 := by
        rw [dlookup] at hd
        by_cases he : s = nv.1
        · rw [if_pos he] at hd
          injection hd with hd
          omega
        · rw [if_neg he] at hd
          cases hd
      rw [hd, hv] at hnv
      simp at hnv
      omega

theorem astarLoop_opt (c : SearchCtx) (hc : CtxOK c) (hadm : AdmissibleW c.st) :
    ∀ (fuel : Nat) (frontier : List Entry) (came : List (Place × Option Place))
      (gs : List (Place × Int)) (closed : List Place),
      Inv1 c frontier came gs closed →
      frontier.length + potential c.st gs < fuel →
      (∃ P, FeasiblePath c.st c.s c.t P) →
      ∃ L gn, astarLoop c.st c.t c.pt fuel frontier came gs closed =
          .ret (some L) (some gn) ∧
        FeasiblePath c.st c.s c.t L ∧ costL c.st L = gn ∧
        ∀ P, FeasiblePath c.st c.s c.t P → gn ≤ costL c.st P := by
  intro fuel
  induction fuel with
  | zero =>
    intro frontier came gs closed _ hm _
    omega
  | succ fuel ih =>
    intro frontier came gs closed hinv hm hex
    obtain ⟨P0, hP0⟩ := hex
    cases frontier with
    | nil => exact absurd rfl (frontier_nonempty hc hinv hP0)
    | cons e es =>
      rw [astarLoop_succ_cons]
      have hcurmem : selectMin e es ∈ e :: es := selectMin_mem e es
      obtain ⟨v, hv, hvle⟩ := hinv.base.entry_gs _ hcurmem
      rw [hv]
      have hsub : ∀ x ∈ (e :: es).erase (selectMin e es), x ∈ e :: es :=
        fun x hx => List.erase_subset _ _ hx
      have herlen : ((e :: es).erase (selectMin e es)).length = es.length := by
        rw [List.length_erase_of_mem hcurmem]
        rfl
      simp only [List.length_cons] at hm
      by_cases hstale : v < (selectMin e es).g
      · rw [if_pos (by simpa using hstale)]
        refine ih _ came gs closed (Inv1_stale hinv hv hstale) ?_ ⟨P0, hP0⟩
        rw [herlen]
        omega
      · rw [if_neg (by simpa using hstale)]
        have hveq : dlookup (selectMin e es).node gs = some (selectMin e es).g := by
          rw [hv]
          congr 1
          omega
        have hmin : ∀ x ∈ e :: es,
            ((selectMin e es).g : ℝ) + Real.sqrt (((selectMin e es).hsq : ℝ)) ≤
              (x.g : ℝ) + Real.sqrt ((x.hsq : ℝ)) :=
          selectMin_le_real es e (entry_hsq_nonneg hc hinv.base)
        by_cases hgoal : (selectMin e es).node = c.t
        · rw [if_pos hgoal]
          have hgood := goalRet_good hc hinv.base hcurmem hveq hgoal
          have hgt : dlookup c.t gs = some (selectMin e es).g := hgoal ▸ hveq
          rw [hgt] at hgood ⊢
          obtain ⟨hfeas, _, hcost, _, _⟩ := hgood
          have hnc : (selectMin e es).node ∉ closed := by
            rw [hgoal]
            exact hinv.base.closed_not_t
          refine ⟨_, (selectMin e es).g, rfl, hfeas, hcost, ?_⟩
          intro P hPf
          exact crossing hc hadm hinv hcurmem hmin hnc P (by rw [hgoal]; exact hPf)
        · rw [if_neg hgoal]
          have hcurc : (selectMin e es).node ∈
              (if (selectMin e es).node ∈ closed then closed
               else (selectMin e es).node :: closed) := by
            by_cases h : (selectMin e es).node ∈ closed
            · rwa [if_pos h]
            · rw [if_neg h]
              exact List.mem_cons_self _ _
          have hinvR := Inv1R_after_pop hc hadm hinv rfl hveq hgoal
          obtain ⟨out, hout⟩ := relaxList_some hc hcurc
            ((dlookup (selectMin e es).node c.st.adjacency).getD [])
            ((e :: es).erase (selectMin e es)) gs hveq (fun x hx => hx)
          obtain ⟨hinvR', hmeas⟩ := relaxList_inv1 hc hcurc
            ((dlookup (selectMin e es).node c.st.adjacency).getD [])
            ((e :: es).erase (selectMin e es)) gs hinvR hveq (fun x hx => hx) out hout
          have hinv' := Inv1R_done hinvR'
          have hm' : out.1.length + potential c.st out.2 < fuel := by
            rw [herlen] at hmeas
            omega
          obtain ⟨L, gn, heq, hf, hco, hopt⟩ := ih out.1
            (dset (selectMin e es).node (selectMin e es).parent came) out.2
            (if (selectMin e es).node ∈ closed then closed
             else (selectMin e es).node :: closed) hinv' hm' ⟨P0, hP0⟩
          refine ⟨L, gn, ?_, hf, hco, hopt⟩
          rw [hout]
          exact heq

/-- C1 (amended): for every well-formed graph state whose every road
weight is at least the straight-line distance between its endpoints (so
the Euclidean heuristic is admissible, indeed consistent), and every
start and goal present in the place set and not blocked, if any simple
feasible path from start to goal exists then `astar` returns a Found
pair whose cost is the minimum total current weight over all simple
paths from start to goal that use no blocked place and no blocked road.
(The unamended claim over arbitrary mutated weights is refuted by
`C1_counterexample`.) -/
theorem C1_theorem (st : GraphState) (s t : Place) (hwf : WFState st)
    (hadm : AdmissibleW st)
    (hs : (dlookup s st.nodes).isSome = true) (ht : (dlookup t st.nodes).isSome = true)
    (hsb : s ∉ st.blockedNodes) (htb : t ∉ st.blockedNodes)
    (hex : ∃ L, SimplePath st s t L) :
    ∃ L gn, astar st (some s) (some t) = .ret (some L) (some gn) ∧
      IsBestCost st s t gn := by
  obtain ⟨hwf1, hwf2, hwf3, hwf4⟩ := hwf
  by_cases hst : s = t
  · subst hst
    refine ⟨[s], 0, ?_, ?_, ?_⟩
    · show astar st (some s) (some s) = .ret (some [s]) (some 0)
      simp only [astar]
      rw [if_neg (by push_neg; exact ⟨hsb, hsb⟩)]
      rfl
    · exact ⟨[s], ⟨⟨rfl, rfl, rfl⟩, List.nodup_singleton s⟩, rfl⟩
    · intro L _
      exact costL_nonneg hwf4 L
  · cases hls : dlookup s st.nodes with
    | none =>
      rw [hls] at hs
      simp at hs
    | some ps =>
      cases hlt : dlookup t st.nodes with
      | none =>
        rw [hlt] at ht
        simp at ht
      | some pt =>
        have hrun : astar st (some s) (some t) =
            astarLoop st t pt (astarFuel st) [⟨0, sqDist ps pt, s, none⟩] [] [(s, 0)] [] := by
          simp only [astar]
          rw [if_neg (by push_neg; exact ⟨hsb, htb⟩), if_neg hst, hls, hlt]
        have hc : CtxOK ⟨st, s, t, ps, pt⟩ :=
          ⟨hwf1, hwf2, hwf3, hwf4, hls, hlt, hsb, htb, hst⟩
        have hinv2 : Inv2 ⟨st, s, t, ps, pt⟩ [⟨0, sqDist ps pt, s, none⟩] []
            [(s, 0)] [] := by
          refine ⟨by simp, ?_, ?_, ⟨by simp, ?_, ?_, ?_, ?_⟩, ?_, ?_, ?_, ?_, ?_, ?_, ?_⟩
          · intro kv hkv
            simp only [List.mem_singleton] at hkv
            subst hkv
            exact hsb
          · intro kv hkv
            simp only [List.mem_singleton] at hkv
            subst hkv
            simp [hls]
          · intro pr hpr
            cases hpr
          · intro pr hpr
            cases hpr
          · rw [dlookup, if_pos rfl]
          · intro kv hkv
            simp only [List.mem_singleton] at hkv
            subst hkv
            exact le_refl _
          · intro pr hpr
            cases hpr
          · intro e' he'
            simp only [List.mem_singleton] at he'
            subst he'
            exact ⟨0, by rw [dlookup, if_pos rfl], le_refl _⟩
          · intro e' he' _
            simp only [List.mem_singleton] at he'
            subst he'
            exact ⟨rfl, rfl, rfl⟩
          · intro e' he' p hp
            simp only [List.mem_singleton] at he'
            subst he'
            cases hp
          · intro n hn
            cases hn
          · intro n hn
            cases hn
          · intro hn
            cases hn
        have hinv0 : Inv1 ⟨st, s, t, ps, pt⟩ [⟨0, sqDist ps pt, s, none⟩] []
            [(s, 0)] [] := by
          refine ⟨hinv2, ?_, ?_, ?_, ?_⟩
          · intro kv hkv
            simp only [List.mem_singleton] at hkv
            subst hkv
            exact ⟨[s], ⟨rfl, rfl, rfl⟩, List.nodup_singleton s,
              fun x hx => Or.inl (by simpa using hx), rfl⟩
          · intro kv hkv _
            simp only [List.mem_singleton] at hkv
            subst hkv
            exact ⟨⟨0, sqDist ps pt, s, none⟩, List.mem_singleton.mpr rfl, rfl, rfl⟩
          · intro n hn
            cases hn
          · intro n hn
            cases hn
        have hfuel : ([⟨0, sqDist ps pt, s, none⟩] : List Entry).length +
            potential st [(s, 0)] < astarFuel st := by
          have hpi := potential_init_le st s
          have hfa : astarFuel st = (st.nodes.length + 1) * (2 * sumW st + 2) + 4 := rfl
          have hmul : (st.nodes.length + 1) * (2 * sumW st + 2) =
              st.nodes.length * (2 * sumW st + 2) + (2 * sumW st + 2) := by ring
          rw [hfa]
          simp only [List.length_singleton]
          omega
        obtain ⟨L0, hL0⟩ := hex
        have hexF : ∃ P, FeasiblePath st s t P := ⟨L0, hL0.1⟩
        obtain ⟨L, gn, heq, hf, hco, hopt⟩ :=
          astarLoop_opt ⟨st, s, t, ps, pt⟩ hc hadm (astarFuel st)
            [⟨0, sqDist ps pt, s, none⟩] [] [(s, 0)] [] hinv0 hfuel hexF
        refine ⟨L, gn, ?_, ?_, ?_⟩
        · rw [hrun]
          exact heq
        · obtain ⟨M, hM, hMc, _⟩ :=
            exists_simple_of_feasible hwf4 L.length L s t (le_refl _) hf
          have h1 : gn ≤ costL st M := hopt M hM.1
          have hMc' : costL st M ≤ costL st L := hMc
          have hco' : costL st L = gn := hco
          exact ⟨M, hM, by omega⟩
        · intro L' hL'
          exact hopt L' hL'.1

theorem C1_witness :
    WFState stWit ∧ AdmissibleW stWit ∧
    (dlookup "A" stWit.nodes).isSome = true ∧
    (dlookup "G" stWit.nodes).isSome = true ∧
    "A" ∉ stWit.blockedNodes ∧ "G" ∉ stWit.blockedNodes ∧
    (∃ L, SimplePath stWit "A" "G" L) ∧
    (∃ L gn, astar stWit (some "A") (some "G") = .ret (some L) (some gn) ∧
      IsBestCost stWit "A" "G" gn) :=
  ⟨by decide, by decide, by decide, by decide, by decide, by decide,
    ⟨["A", "B", "D", "E", "G"], by unfold SimplePath FeasiblePath; decide⟩,
    C1_theorem stWit "A" "G" (by decide) (by decide) (by decide) (by decide)
      (by decide) (by decide)
      ⟨["A", "B", "D", "E", "G"], by unfold SimplePath FeasiblePath; decide⟩⟩
